import Mathlib

/-!
# Verification of the emergency-routing core (`graph.py`)

Shallow embedding of the `Graph` class of `src/graph.py` together with the
sample scenario of `src/example_usage.py`, and proofs of the behavioural
claims about them.

Modelling conventions:
* Python dicts are modelled as insertion-ordered association lists
  (`List (String × α)`); dict assignment is `setk` (replace the first
  binding in place, else append), exactly matching CPython semantics.
* Python floats are modelled as exact rationals (`ℚ`); `float('infinity')`
  is the `⊤` of `WithTop ℚ`.
* The `heapq` priority queue of `(distance, node)` tuples is modelled by the
  multiset of its entries: `heappop` always returns the entry that is least
  in the lexicographic order on `(float, str)` tuples, which determines the
  popped *value* uniquely, so a binary heap and a pop-least list are
  extensionally the same queue.
* Python `while` loops are modelled with an explicit fuel parameter that is
  proved sufficient below; a `KeyError` site that is unreachable for the
  well-formed graphs considered here is modelled with a default value.
-/

/-! ## Association lists (Python dicts) -/

/-- First-match lookup in an association list, i.e. `d[k]` / `k in d`. -/
def lookupA {α : Type} : List (String × α) → String → Option α
  | [], _ => none
  | (k, v) :: t, key => if k = key then some v else lookupA t key

/-- Python `key in d`. -/
def memKey {α : Type} (m : List (String × α)) (key : String) : Bool :=
  (lookupA m key).isSome

/-- Python dict assignment `d[key] = v`: replace the first binding of `key`
in place, else append a new binding. -/
def setk {α : Type} : List (String × α) → String → α → List (String × α)
  | [], key, v => [(key, v)]
  | (k, w) :: t, key, v => if k = key then (key, v) :: t else (k, w) :: setk t key v

/-! ## The data model of `Graph.__init__` -/

/-- Value stored in `self.hospitals`: `{"capacity": current, "max_capacity": max}`.
`capacity` is the currently used capacity (occupied beds). -/
structure HospitalInfo where
  capacity : ℤ
  max_capacity : ℤ
deriving DecidableEq

/-- The state of a `Graph` object: adjacency dict, position dict, hospital dict. -/
structure Graph where
  graph : List (String × List (String × ℚ))
  node_positions : List (String × (ℚ × ℚ))
  hospitals : List (String × HospitalInfo)
deriving DecidableEq

/-- A freshly constructed `Graph()`. -/
def Graph.empty : Graph := ⟨[], [], []⟩

/-- The node identifiers of the graph (keys of `self.graph`), in insertion order. -/
def Graph.nodes (g : Graph) : List String := g.graph.map Prod.fst

/-- Adjacency list of a node (`self.graph[u]`; `[]` at the unreachable
`KeyError` site). -/
def adjOf (g : Graph) (u : String) : List (String × ℚ) :=
  (lookupA g.graph u).getD []

/-- `Graph.add_node`. -/
def Graph.add_node (g : Graph) (node_id : String) (x y : ℚ)
    (is_hospital : Bool) (capacity : ℤ) : Graph :=
  if memKey g.graph node_id then g
  else
    { graph := setk g.graph node_id []
      node_positions := setk g.node_positions node_id (x, y)
      hospitals :=
        if is_hospital then setk g.hospitals node_id ⟨0, capacity⟩ else g.hospitals }

/-- `Graph.add_edge`. The for/else loops over the two adjacency lists are
exactly `setk`; the `to_node` list is read after the `from_node` update, which
matters when `from_node = to_node`. -/
def Graph.add_edge (g : Graph) (from_node to_node : String) (distance : ℚ) : Graph :=
  if memKey g.graph from_node && memKey g.graph to_node then
    let g1 := setk g.graph from_node
      (setk ((lookupA g.graph from_node).getD []) to_node distance)
    let g2 := setk g1 to_node
      (setk ((lookupA g1 to_node).getD []) from_node distance)
    { g with graph := g2 }
  else g

/-- `Graph.get_available_hospitals`: hospitals with `capacity < max_capacity`,
in insertion order. -/
def Graph.get_available_hospitals (g : Graph) : List String :=
  (g.hospitals.filter fun p => decide (p.2.capacity < p.2.max_capacity)).map Prod.fst

/-- `Graph.update_hospital_capacity`: state-passing version returning the
`bool` result and the updated graph. -/
def Graph.update_hospital_capacity (g : Graph) (hospital_id : String) (delta : ℤ) :
    Bool × Graph :=
  match lookupA g.hospitals hospital_id with
  | some info =>
    let new_capacity := info.capacity + delta
    if 0 ≤ new_capacity ∧ new_capacity ≤ info.max_capacity then
      (true,
        { g with
            hospitals := setk g.hospitals hospital_id ⟨new_capacity, info.max_capacity⟩ })
    else (false, g)
  | none => (false, g)

/-! ## Dijkstra (`Graph.dijkstra`) -/

/-- State of the `while priority_queue:` loop: the `distances` dict, the
`predecessors` dict and the multiset of heap entries. -/
structure DState where
  dist : List (String × WithTop ℚ)
  pred : List (String × Option String)
  pq : List (ℚ × String)
deriving DecidableEq

/-- Lexicographic order on `(distance, node)` heap entries, as Python compares
`(float, str)` tuples. -/
def entryLe (a b : ℚ × String) : Bool :=
  decide (a.1 < b.1) || (decide (a.1 = b.1) && decide (a.2 ≤ b.2))

/-- Least entry of the queue (the value returned by `heapq.heappop`). -/
def minEntry : List (ℚ × String) → Option (ℚ × String)
  | [] => none
  | e :: t =>
    match minEntry t with
    | none => some e
    | some m => some (if entryLe e m then e else m)

/-- Remove the first occurrence of an entry from the queue. -/
def removeFirst : List (ℚ × String) → (ℚ × String) → List (ℚ × String)
  | [], _ => []
  | x :: t, e => if x = e then t else x :: removeFirst t e

/-- `heapq.heappop`: remove and return the least entry. -/
def popMin (pq : List (ℚ × String)) : Option ((ℚ × String) × List (ℚ × String)) :=
  match minEntry pq with
  | none => none
  | some e => some (e, removeFirst pq e)

/-- One iteration of `for neighbor, weight in self.graph[current_node]:` for a
single `(neighbor, weight)` pair, where `d` is `current_distance`. -/
def relaxOne (u : String) (d : ℚ) (s : DState) (vw : String × ℚ) : DState :=
  let distance := d + vw.2
  if ((distance : ℚ) : WithTop ℚ) < (lookupA s.dist vw.1).getD ⊤ then
    { dist := setk s.dist vw.1 ((distance : ℚ) : WithTop ℚ)
      pred := setk s.pred vw.1 (some u)
      pq := s.pq ++ [(distance, vw.1)] }
  else s

/-- The `while priority_queue:` loop, with fuel. -/
def dijkstraLoop (g : Graph) : ℕ → DState → DState
  | 0, s => s
  | fuel + 1, s =>
    match popMin s.pq with
    | none => s
    | some ((d, u), rest) =>
      if (lookupA s.dist u).getD ⊤ < ((d : ℚ) : WithTop ℚ) then
        dijkstraLoop g fuel { s with pq := rest }
      else
        dijkstraLoop g fuel ((adjOf g u).foldl (relaxOne u d) { s with pq := rest })

/-- Total number of directed adjacency entries. -/
def Graph.totalAdj (g : Graph) : ℕ := (g.graph.map fun p => p.2.length).sum

/-- Fuel shown below to be sufficient for the loop to drain the queue on
graphs with non-negative weights. -/
def Graph.dijkstraFuel (g : Graph) : ℕ := 1 + (1 + g.totalAdj) * (g.graph.length + 1)

/-- The initial loop state of `Graph.dijkstra`: all distances infinite except
the start node at `0`, all predecessors `None`, queue `[(0, start_node)]`. -/
def dijkstraInit (g : Graph) (start_node : String) : DState :=
  { dist := setk (g.graph.map fun p => (p.1, (⊤ : WithTop ℚ))) start_node
      ((0 : ℚ) : WithTop ℚ)
    pred := g.graph.map fun p => (p.1, (none : Option String))
    pq := [(0, start_node)] }

/-- The loop state at the end of `Graph.dijkstra`'s while loop. -/
def dijkstraFinal (g : Graph) (start_node : String) : DState :=
  dijkstraLoop g g.dijkstraFuel (dijkstraInit g start_node)

/-- `Graph.dijkstra`. -/
def Graph.dijkstra (g : Graph) (start_node : String) :
    List (String × WithTop ℚ) × List (String × Option String) :=
  if memKey g.graph start_node then
    let final := dijkstraLoop g g.dijkstraFuel (dijkstraInit g start_node)
    (final.dist, final.pred)
  else ([], [])

/-! ## `Graph.find_nearest_available_hospital` -/

/-- One iteration of the `for hospital in available_hospitals:` selection loop. -/
def considerHospital (dist : List (String × WithTop ℚ))
    (acc : Option String × WithTop ℚ) (hospital : String) :
    Option String × WithTop ℚ :=
  match lookupA dist hospital with
  | some dh => if dh < acc.2 then (some hospital, dh) else acc
  | none => acc

/-- The `while current is not None:` path-reconstruction loop, with fuel;
nodes are accumulated in append order (hospital first). -/
def buildPath (pred : List (String × Option String)) :
    ℕ → Option String → List String → List String
  | _, none, path => path
  | 0, some _, path => path
  | fuel + 1, some u, path =>
    buildPath pred fuel ((lookupA pred u).getD none) (path ++ [u])

/-- `Graph.find_nearest_available_hospital`. -/
def Graph.find_nearest_available_hospital (g : Graph) (start_node : String) :
    Option String × List String × WithTop ℚ :=
  let available_hospitals := g.get_available_hospitals
  if available_hospitals.isEmpty then (none, [], ⊤)
  else
    let dp := g.dijkstra start_node
    let sel := available_hospitals.foldl (considerHospital dp.1) (none, ⊤)
    match sel.1 with
    | none => (none, [], ⊤)
    | some nearest =>
      ((some nearest),
        (buildPath dp.2 (g.graph.length + 1) (some nearest) []).reverse,
        sel.2)

/-! ## `Graph.get_path_details` -/

/-- The segment loop of `get_path_details`. `lastw` is the value currently
bound to the Python variable `distance`: when the inner weight-lookup loop
finds no edge, the previous value is silently reused, and if there is no
previous value the function dies with a `NameError`, modelled as `none`. -/
def pathDetailsLoop (g : Graph) :
    List String → Option ℚ → ℚ → List (String × String × ℚ) →
    Option (ℚ × List (String × String × ℚ))
  | u :: v :: rest, lastw, total, segs =>
    match
      (match lookupA (adjOf g u) v with
       | some w => some w
       | none => lastw) with
    | none => none
    | some w => pathDetailsLoop g (v :: rest) (some w) (total + w) (segs ++ [(u, v, w)])
  | _, _, total, segs => some (total, segs)

/-- `Graph.get_path_details`; `none` is the `NameError` case. -/
def Graph.get_path_details (g : Graph) (path : List String) :
    Option (ℚ × List (String × String × ℚ)) :=
  if path.length < 2 then some (0, [])
  else pathDetailsLoop g path none 0 []

/-! ## The sample map of `example_usage.create_sample_map` -/

/-- `create_sample_map` from `src/example_usage.py`. -/
def create_sample_map : Graph :=
  (((((((((((((((((((((((((((((((((((((((Graph.empty.add_node
    "A" 0 0 false 0).add_node "B" 2 0 false 0).add_node "C" 4 0 false 0).add_node
    "D" 6 0 false 0).add_node "E" 0 2 false 0).add_node "F" 2 2 false 0).add_node
    "G" 4 2 false 0).add_node "H" 6 2 false 0).add_node "I" 0 4 false 0).add_node
    "J" 2 4 false 0).add_node "K" 4 4 false 0).add_node "L" 6 4 false 0).add_node
    "H1" 1 1 true 2).add_node "H2" 5 1 true 3).add_node "H3" 3 3 true 5).add_edge
    "A" "B" 2).add_edge "B" "C" 2).add_edge "C" "D" 2).add_edge
    "E" "F" 2).add_edge "F" "G" 2).add_edge "G" "H" 2).add_edge
    "I" "J" 2).add_edge "J" "K" 2).add_edge "K" "L" 2).add_edge
    "A" "E" 2).add_edge "E" "I" 2).add_edge "B" "F" 2).add_edge
    "F" "J" 2).add_edge "C" "G" 2).add_edge "G" "K" 2).add_edge
    "D" "H" 2).add_edge "H" "L" 2).add_edge
    "A" "H1" 1.4).add_edge "B" "H1" 1.4).add_edge "E" "H1" 1.4).add_edge
    "F" "H1" 1.4).add_edge "C" "H2" 1.4).add_edge "D" "H2" 1.4).add_edge
    "G" "H2" 1.4).add_edge "H" "H2" 1.4
  |>.add_edge "F" "H3" 1.4 |>.add_edge "G" "H3" 1.4 |>.add_edge
    "J" "H3" 1.4 |>.add_edge "K" "H3" 1.4

/-- The sample map after two committed allocations to hospital `H1`
(`update_hospital_capacity('H1')` twice, default delta `+1`). -/
def gAfterTwoCommits : Graph :=
  ((create_sample_map.update_hospital_capacity "H1" 1).2.update_hospital_capacity "H1" 1).2

/-- A two-node graph joined by a zero-weight edge. -/
def zeroWeightExample : Graph :=
  ((Graph.empty.add_node "a" 0 0 false 0).add_node "b" 1 0 false 0).add_edge "a" "b" 0

/-! ## Semantic layer: walks, shortest distances, well-formedness -/

/-- Cost-annotated walks along adjacency entries: `WalkCost g u v c` says there
is a walk from `u` to `v` in `g` whose traversed edge weights sum to `c`. -/
inductive WalkCost (g : Graph) : String → String → ℚ → Prop where
  | refl (u : String) : WalkCost g u u 0
  | step {u v x : String} {w c : ℚ} :
      (v, w) ∈ adjOf g u → WalkCost g v x c → WalkCost g u x (w + c)

/-- `v` is reachable from `u` by some walk. -/
def Reachable (g : Graph) (u v : String) : Prop := ∃ c, WalkCost g u v c

/-- `c` is the minimum cost over all walks from `u` to `v`. -/
def IsShortestDist (g : Graph) (u v : String) (c : ℚ) : Prop :=
  WalkCost g u v c ∧ ∀ c', WalkCost g u v c' → c ≤ c'

/-- Well-formedness of a graph state: the invariants maintained by the
`Graph` API (no duplicate dict keys, adjacency lists mention existing nodes
at most once each, hospitals are nodes). -/
structure WF (g : Graph) : Prop where
  nodupNodes : g.nodes.Nodup
  closed : ∀ u ∈ g.nodes, ∀ vw ∈ adjOf g u, vw.1 ∈ g.nodes
  adjNodup : ∀ u ∈ g.nodes, ((adjOf g u).map Prod.fst).Nodup
  nodupHosp : (g.hospitals.map Prod.fst).Nodup
  hospSub : ∀ h ∈ g.hospitals.map Prod.fst, h ∈ g.nodes

/-- All edge weights are non-negative. -/
def NonNeg (g : Graph) : Prop := ∀ u ∈ g.nodes, ∀ vw ∈ adjOf g u, 0 ≤ vw.2

instance decNonNeg (g : Graph) : Decidable (NonNeg g) := by
  unfold NonNeg
  infer_instance

/-- Every registered hospital's occupancy lies within `[0, max_capacity]`. -/
def CapOK (g : Graph) : Prop :=
  ∀ p ∈ g.hospitals, 0 ≤ p.2.capacity ∧ p.2.capacity ≤ p.2.max_capacity

instance decCapOK (g : Graph) : Decidable (CapOK g) := by
  unfold CapOK
  infer_instance

/-- A hospital that `get_available_hospitals` reports: registered with spare
capacity. -/
def AvailableH (g : Graph) (h : String) : Prop :=
  ∃ info, lookupA g.hospitals h = some info ∧ info.capacity < info.max_capacity

/-! ## Views of the Dijkstra loop state -/

/-- Tentative distance of `v` (`distances[v]`, `⊤` at the unreachable
`KeyError` site). -/
def DVal (s : DState) (v : String) : WithTop ℚ := (lookupA s.dist v).getD ⊤

/-- Recorded predecessor of `v` (`predecessors[v]`). -/
def PVal (s : DState) (v : String) : Option String := (lookupA s.pred v).getD none

/-- Node `u` is fully relaxed: no outgoing adjacency entry can improve a
tentative distance. -/
def Relaxed (g : Graph) (s : DState) (u : String) : Prop :=
  ∀ vw ∈ adjOf g u, DVal s vw.1 ≤ DVal s u + (vw.2 : WithTop ℚ)

/-- Iterating `p` from `v` eventually reaches a `none` entry (the
predecessor-walk loop of `find_nearest_available_hospital` terminates). -/
inductive ReachesNone (p : String → Option String) : String → Prop where
  | stop {v : String} : p v = none → ReachesNone p v
  | step {v u : String} : p v = some u → ReachesNone p u → ReachesNone p v

/-- `x` occurs on the `p`-predecessor chain starting at `u`. -/
inductive InChain (p : String → Option String) : String → String → Prop where
  | base (u : String) : InChain p u u
  | step {u z x : String} : p u = some z → InChain p z x → InChain p u x

/-- The full `p`-predecessor chain starting at `v`, as a list (first element
`v`, last element the node whose entry is `none`). -/
inductive ChainList (p : String → Option String) : String → List String → Prop where
  | stop {v : String} : p v = none → ChainList p v [v]
  | step {v u : String} {l : List String} :
      p v = some u → ChainList p u l → ChainList p v (v :: l)

/-- Invariant of the `while priority_queue:` loop of `dijkstra` (graph `g`,
start node `a`), without the frontier field, which is re-established only at
the end of each full relaxation pass. -/
structure DInvCore (g : Graph) (a : String) (s : DState) : Prop where
  distKeys : s.dist.map Prod.fst = g.nodes
  predKeys : s.pred.map Prod.fst = g.nodes
  pqNodes : ∀ e ∈ s.pq, e.2 ∈ g.nodes
  pqNonneg : ∀ e ∈ s.pq, 0 ≤ e.1
  srcMem : a ∈ g.nodes
  srcZero : DVal s a = 0
  srcPred : PVal s a = none
  pqGe : ∀ e ∈ s.pq, DVal s e.2 ≤ (e.1 : WithTop ℚ)
  sound : ∀ v, ∀ c : ℚ, DVal s v = (c : WithTop ℚ) → WalkCost g a v c
  predEdge : ∀ v u, PVal s v = some u →
    u ∈ g.nodes ∧ DVal s v ≠ ⊤ ∧
      ∃ w : ℚ, (v, w) ∈ adjOf g u ∧ DVal s u + (w : WithTop ℚ) ≤ DVal s v
  predTop : ∀ v, DVal s v = ⊤ → PVal s v = none
  finitePred : ∀ v, v ≠ a → DVal s v ≠ ⊤ → PVal s v ≠ none
  predTerm : ∀ v, ReachesNone (PVal s) v

/-- Node `u` either has a queue entry recording its current tentative
distance, or is fully relaxed. -/
def FreshRel (g : Graph) (s : DState) (u : String) : Prop :=
  (∃ k : ℚ, (k, u) ∈ s.pq ∧ (k : WithTop ℚ) = DVal s u) ∨ Relaxed g s u

/-- The full loop invariant: the core plus the frontier property (every node
with a finite tentative distance has a fresh queue entry or is fully
relaxed). -/
structure DInv (g : Graph) (a : String) (s : DState) extends DInvCore g a s : Prop where
  fresh : ∀ u, DVal s u ≠ ⊤ → FreshRel g s u

/-- Ghost data for the termination argument: `P` is a set of already-settled
nodes whose distances are final lower bounds for every queue entry. -/
structure GhostInv (g : Graph) (P : Finset String) (s : DState) : Prop where
  relaxedP : ∀ u ∈ P, Relaxed g s u
  lowP : ∀ u ∈ P, ∀ e ∈ s.pq, DVal s u ≤ (e.1 : WithTop ℚ)

/-- Termination measure for the Dijkstra loop. -/
def dijkMeasure (g : Graph) (P : Finset String) (s : DState) : ℕ :=
  s.pq.length + (1 + g.totalAdj) * (g.nodes.toFinset \ P).card

/-! ## Operations as a step relation (for the frame claim) -/

/-- The operations of the `Graph` API exercised by the spec. -/
inductive Op where
  | addNode (id : String) (x y : ℚ) (is_hospital : Bool) (capacity : ℤ)
  | addEdge (u v : String) (w : ℚ)
  | updateCapacity (id : String) (delta : ℤ)
  | findNearest (origin : String)
  | runDijkstra (source : String)
  | availableHospitals
  | pathDetails (path : List String)

/-- Results of the operations. -/
inductive OpResult where
  | unit
  | boolRes (b : Bool)
  | nearestRes (r : Option String × List String × WithTop ℚ)
  | dijkstraRes (r : List (String × WithTop ℚ) × List (String × Option String))
  | hospitalsRes (r : List String)
  | detailsRes (r : Option (ℚ × List (String × String × ℚ)))
deriving DecidableEq

/-- Execute one operation, returning the successor state and the result.
The four query methods contain no assignment to `self` in the source, so
their translation returns the receiver unchanged. -/
def applyOp (g : Graph) : Op → Graph × OpResult
  | .addNode id x y b c => (g.add_node id x y b c, .unit)
  | .addEdge u v w => (g.add_edge u v w, .unit)
  | .updateCapacity id d =>
    ((g.update_hospital_capacity id d).2, .boolRes (g.update_hospital_capacity id d).1)
  | .findNearest o => (g, .nearestRes (g.find_nearest_available_hospital o))
  | .runDijkstra src => (g, .dijkstraRes (g.dijkstra src))
  | .availableHospitals => (g, .hospitalsRes g.get_available_hospitals)
  | .pathDetails p => (g, .detailsRes (g.get_path_details p))

/-- The four read-only operations named by the frame claim. -/
def Op.readsOnly : Op → Prop
  | .findNearest _ => True
  | .runDijkstra _ => True
  | .availableHospitals => True
  | .pathDetails _ => True
  | _ => False

/-! ## Association-list lemmas -/

theorem lookupA_setk_self {α : Type} (m : List (String × α)) (k : String) (v : α) :
    lookupA (setk m k v) k = some v := by
  induction m with
  | nil => simp [setk, lookupA]
  | cons p t ih =>
    by_cases h : p.1 = k
    · simp [setk, h, lookupA]
    · simp [setk, h, lookupA, ih]

theorem lookupA_setk_ne {α : Type} (m : List (String × α)) {k k' : String} (v : α)
    (h : k' ≠ k) : lookupA (setk m k v) k' = lookupA m k' := by
  have h' : k ≠ k' := Ne.symm h
  induction m with
  | nil => simp [setk, lookupA, h']
  | cons p t ih =>
    by_cases hp : p.1 = k
    · subst hp
      simp [setk, lookupA, h']
    · simp only [setk, hp, if_false, lookupA]
      by_cases hp' : p.1 = k'
      · simp [hp']
      · simp [hp', ih]

theorem lookupA_isSome_iff {α : Type} (m : List (String × α)) (k : String) :
    (lookupA m k).isSome = true ↔ k ∈ m.map Prod.fst := by
  induction m with
  | nil => simp [lookupA]
  | cons p t ih =>
    by_cases h : p.1 = k
    · simp [lookupA, h]
    · simp [lookupA, h, ih, Ne.symm h]

theorem lookupA_eq_none_iff {α : Type} (m : List (String × α)) (k : String) :
    lookupA m k = none ↔ k ∉ m.map Prod.fst := by
  rw [← lookupA_isSome_iff]
  cases lookupA m k <;> simp

theorem lookupA_mem {α : Type} {m : List (String × α)} {k : String} {v : α}
    (h : lookupA m k = some v) : (k, v) ∈ m := by
  induction m with
  | nil => simp [lookupA] at h
  | cons p t ih =>
    by_cases hp : p.1 = k
    · simp only [lookupA, hp, if_true, Option.some.injEq] at h
      obtain ⟨k0, v0⟩ := p
      simp only at hp
      subst hp
      subst h
      exact List.mem_cons_self _ _
    · simp only [lookupA, hp, if_false] at h
      exact List.mem_cons_of_mem _ (ih h)

theorem lookupA_of_nodup_mem {α : Type} {m : List (String × α)} {k : String} {v : α}
    (hd : (m.map Prod.fst).Nodup) (h : (k, v) ∈ m) : lookupA m k = some v := by
  induction m with
  | nil => simp at h
  | cons p t ih =>
    simp only [List.map_cons, List.nodup_cons] at hd
    rcases List.mem_cons.mp h with h1 | h1
    · subst h1
      simp [lookupA]
    · have hk : p.1 ≠ k := by
        intro he
        exact hd.1 (he ▸ List.mem_map.mpr ⟨(k, v), h1, rfl⟩)
      simp [lookupA, hk, ih hd.2 h1]

theorem keys_setk_of_mem {α : Type} {m : List (String × α)} {k : String} (v : α)
    (h : k ∈ m.map Prod.fst) : (setk m k v).map Prod.fst = m.map Prod.fst := by
  induction m with
  | nil => simp at h
  | cons p t ih =>
    by_cases hp : p.1 = k
    · simp [setk, hp]
    · simp only [List.map_cons, List.mem_cons] at h
      rcases h with h1 | h1
      · exact absurd h1.symm hp
      · simp [setk, hp, ih h1]

theorem keys_setk_of_not_mem {α : Type} {m : List (String × α)} {k : String} (v : α)
    (h : k ∉ m.map Prod.fst) : (setk m k v).map Prod.fst = m.map Prod.fst ++ [k] := by
  induction m with
  | nil => simp [setk]
  | cons p t ih =>
    simp only [List.map_cons, List.mem_cons] at h
    push_neg at h
    simp [setk, Ne.symm h.1, ih h.2]

theorem nodup_keys_setk {α : Type} {m : List (String × α)} (k : String) (v : α)
    (hd : (m.map Prod.fst).Nodup) : ((setk m k v).map Prod.fst).Nodup := by
  by_cases h : k ∈ m.map Prod.fst
  · rw [keys_setk_of_mem v h]
    exact hd
  · rw [keys_setk_of_not_mem v h]
    simp [List.nodup_append, hd, h]

/-! ## Priority-queue lemmas -/

theorem entryLe_key {a b : ℚ × String} (h : entryLe a b = true) : a.1 ≤ b.1 := by
  unfold entryLe at h
  simp only [Bool.or_eq_true, Bool.and_eq_true, decide_eq_true_eq] at h
  rcases h with h | h
  · exact le_of_lt h
  · exact le_of_eq h.1

theorem entryLe_total (a b : ℚ × String) : entryLe a b = true ∨ entryLe b a = true := by
  unfold entryLe
  simp only [Bool.or_eq_true, Bool.and_eq_true, decide_eq_true_eq]
  rcases lt_trichotomy a.1 b.1 with h | h | h
  · exact .inl (.inl h)
  · rcases le_total a.2 b.2 with h2 | h2
    · exact .inl (.inr ⟨h, h2⟩)
    · exact .inr (.inr ⟨h.symm, h2⟩)
  · exact .inr (.inl h)

theorem minEntry_eq_none_iff (pq : List (ℚ × String)) : minEntry pq = none ↔ pq = [] := by
  cases pq with
  | nil => simp [minEntry]
  | cons x t =>
    simp only [minEntry]
    cases minEntry t <;> simp

theorem minEntry_mem {pq : List (ℚ × String)} {e : ℚ × String}
    (h : minEntry pq = some e) : e ∈ pq := by
  induction pq generalizing e with
  | nil => simp [minEntry] at h
  | cons x t ih =>
    simp only [minEntry] at h
    cases ht : minEntry t with
    | none =>
      rw [ht] at h
      simp only [Option.some.injEq] at h
      exact h ▸ List.mem_cons_self _ _
    | some m =>
      rw [ht] at h
      simp only [Option.some.injEq] at h
      by_cases hle : entryLe x m = true
      · rw [if_pos hle] at h
        exact h ▸ List.mem_cons_self _ _
      · rw [if_neg hle] at h
        exact h ▸ List.mem_cons_of_mem _ (ih ht)

theorem minEntry_le {pq : List (ℚ × String)} {e : ℚ × String}
    (h : minEntry pq = some e) : ∀ y ∈ pq, e.1 ≤ y.1 := by
  induction pq generalizing e with
  | nil => simp [minEntry] at h
  | cons x t ih =>
    intro y hy
    simp only [minEntry] at h
    cases ht : minEntry t with
    | none =>
      rw [ht] at h
      simp only [Option.some.injEq] at h
      have : t = [] := (minEntry_eq_none_iff t).mp ht
      subst this
      rcases List.mem_cons.mp hy with heq | hy'
      · subst heq
        exact h ▸ le_refl _
      · simp at hy'
    | some m =>
      rw [ht] at h
      simp only [Option.some.injEq] at h
      rcases List.mem_cons.mp hy with heq | hy'
      · rw [heq]
        by_cases hle : entryLe x m = true
        · rw [if_pos hle] at h
          exact h ▸ le_refl _
        · rw [if_neg hle] at h
          rcases entryLe_total x m with hx | hx
          · exact absurd hx hle
          · exact h ▸ entryLe_key hx
      · by_cases hle : entryLe x m = true
        · rw [if_pos hle] at h
          exact h ▸ le_trans (entryLe_key hle) (ih ht y hy')
        · rw [if_neg hle] at h
          exact h ▸ ih ht y hy'

theorem removeFirst_perm {pq : List (ℚ × String)} {e : ℚ × String} (h : e ∈ pq) :
    pq.Perm (e :: removeFirst pq e) := by
  induction pq with
  | nil => simp at h
  | cons x t ih =>
    by_cases hx : x = e
    · subst hx
      simp [removeFirst]
    · rcases List.mem_cons.mp h with h1 | h1
      · exact absurd h1.symm hx
      · simp only [removeFirst, hx, if_false]
        exact ((ih h1).cons x).trans (List.Perm.swap e x _)

theorem removeFirst_subset {pq : List (ℚ × String)} {e : ℚ × String} :
    ∀ x ∈ removeFirst pq e, x ∈ pq := by
  induction pq with
  | nil => simp [removeFirst]
  | cons y t ih =>
    intro x hx
    by_cases hy : y = e
    · subst hy
      simp only [removeFirst, if_true] at hx
      exact List.mem_cons_of_mem _ hx
    · simp only [removeFirst, hy, if_false] at hx
      rcases List.mem_cons.mp hx with rfl | h1
      · exact List.mem_cons_self _ _
      · exact List.mem_cons_of_mem _ (ih _ h1)

theorem removeFirst_mem_of_ne {pq : List (ℚ × String)} {e x : ℚ × String}
    (hx : x ∈ pq) (hne : x ≠ e) : x ∈ removeFirst pq e := by
  induction pq with
  | nil => simp at hx
  | cons y t ih =>
    by_cases hy : y = e
    · subst hy
      simp only [removeFirst, if_true]
      rcases List.mem_cons.mp hx with rfl | h1
      · exact absurd rfl hne
      · exact h1
    · simp only [removeFirst, hy, if_false]
      rcases List.mem_cons.mp hx with rfl | h1
      · exact List.mem_cons_self _ _
      · exact List.mem_cons_of_mem _ (ih h1)

theorem popMin_spec {pq : List (ℚ × String)} {e : ℚ × String} {rest : List (ℚ × String)}
    (h : popMin pq = some (e, rest)) :
    e ∈ pq ∧ rest = removeFirst pq e ∧ (∀ y ∈ pq, e.1 ≤ y.1) := by
  unfold popMin at h
  cases hm : minEntry pq with
  | none => rw [hm] at h; exact absurd h (by simp)
  | some m =>
    rw [hm] at h
    simp only [Option.some.injEq, Prod.mk.injEq] at h
    obtain ⟨rfl, rfl⟩ := h
    exact ⟨minEntry_mem hm, rfl, minEntry_le hm⟩

theorem popMin_perm {pq : List (ℚ × String)} {e : ℚ × String} {rest : List (ℚ × String)}
    (h : popMin pq = some (e, rest)) : pq.Perm (e :: rest) := by
  obtain ⟨hmem, rfl, _⟩ := popMin_spec h
  exact removeFirst_perm hmem

theorem popMin_rest_subset {pq : List (ℚ × String)} {e : ℚ × String}
    {rest : List (ℚ × String)} (h : popMin pq = some (e, rest)) :
    ∀ x ∈ rest, x ∈ pq := by
  obtain ⟨hmem, rfl, _⟩ := popMin_spec h
  exact fun x hx => removeFirst_subset x hx

theorem popMin_rest_mem_of_ne {pq : List (ℚ × String)} {e x : ℚ × String}
    {rest : List (ℚ × String)} (h : popMin pq = some (e, rest))
    (hx : x ∈ pq) (hne : x ≠ e) : x ∈ rest := by
  obtain ⟨hmem, rfl, _⟩ := popMin_spec h
  exact removeFirst_mem_of_ne hx hne

theorem popMin_eq_none_iff (pq : List (ℚ × String)) : popMin pq = none ↔ pq = [] := by
  unfold popMin
  cases hm : minEntry pq with
  | none => simpa using (minEntry_eq_none_iff pq).mp hm
  | some m =>
    constructor
    · intro h
      exact absurd h (by simp)
    · intro h
      subst h
      simp [minEntry] at hm

theorem popMin_rest_length {pq : List (ℚ × String)} {e : ℚ × String}
    {rest : List (ℚ × String)} (h : popMin pq = some (e, rest)) :
    rest.length + 1 = pq.length := by
  have := (popMin_perm h).length_eq
  simpa using this.symm

/-! ## WithTop helper lemmas -/

theorem wt_exists_coe {x : WithTop ℚ} (h : x ≠ ⊤) : ∃ c : ℚ, x = (c : WithTop ℚ) := by
  cases x with
  | top => exact absurd rfl h
  | coe c => exact ⟨c, rfl⟩

theorem wt_add_coe (a w : ℚ) :
    ((a : WithTop ℚ) + (w : WithTop ℚ)) = (((a + w : ℚ)) : WithTop ℚ) := by
  exact_mod_cast rfl

/-! ## Basic graph-operation lemmas -/

theorem setk_setk {α : Type} (m : List (String × α)) (k : String) (v v' : α) :
    setk (setk m k v) k v' = setk m k v' := by
  induction m with
  | nil => simp [setk]
  | cons p t ih =>
    by_cases hp : p.1 = k
    · simp [setk, hp]
    · simp [setk, hp, ih]

theorem adjOf_mem_nodes {g : Graph} {u : String} (h : adjOf g u ≠ []) : u ∈ g.nodes := by
  unfold adjOf at h
  cases hl : lookupA g.graph u with
  | none => simp [hl] at h
  | some l =>
    exact (lookupA_isSome_iff g.graph u).mp (by rw [hl]; rfl)

theorem wf_closed' {g : Graph} (hwf : WF g) {u : String} {vw : String × ℚ}
    (h : vw ∈ adjOf g u) : vw.1 ∈ g.nodes := by
  have hne : adjOf g u ≠ [] := by
    intro he
    rw [he] at h
    simp at h
  exact hwf.closed u (adjOf_mem_nodes hne) vw h

theorem wf_adjNodup' (g : Graph) (hwf : WF g) (u : String) :
    ((adjOf g u).map Prod.fst).Nodup := by
  by_cases h : adjOf g u = []
  · simp [h]
  · exact hwf.adjNodup u (adjOf_mem_nodes h)

theorem nonNeg' {g : Graph} (hnn : NonNeg g) {u : String} {vw : String × ℚ}
    (h : vw ∈ adjOf g u) : 0 ≤ vw.2 := by
  have hne : adjOf g u ≠ [] := by
    intro he
    rw [he] at h
    simp at h
  exact hnn u (adjOf_mem_nodes hne) vw h

theorem add_node_mem (g : Graph) (id : String) (x y : ℚ) (b : Bool) (c : ℤ) :
    memKey (g.add_node id x y b c).graph id = true := by
  unfold Graph.add_node
  by_cases h : memKey g.graph id = true
  · rw [if_pos h]
    exact h
  · rw [if_neg h]
    show memKey (setk g.graph id []) id = true
    simp [memKey, lookupA_setk_self]

theorem mem_setk {α : Type} {m : List (String × α)} {k : String} {v : α}
    {x : String × α} (h : x ∈ setk m k v) : x = (k, v) ∨ x ∈ m := by
  induction m with
  | nil => simpa [setk] using h
  | cons p t ih =>
    by_cases hp : p.1 = k
    · simp only [setk, hp, if_true] at h
      rcases List.mem_cons.mp h with h1 | h1
      · exact .inl h1
      · exact .inr (List.mem_cons_of_mem _ h1)
    · simp only [setk, hp, if_false] at h
      rcases List.mem_cons.mp h with h1 | h1
      · exact .inr (h1 ▸ List.mem_cons_self _ _)
      · rcases ih h1 with h2 | h2
        · exact .inl h2
        · exact .inr (List.mem_cons_of_mem _ h2)

/-! ## Lemmas about `update_hospital_capacity` -/

theorem update_cap_graph_frame (g : Graph) (id : String) (d : ℤ) :
    (g.update_hospital_capacity id d).2.graph = g.graph ∧
    (g.update_hospital_capacity id d).2.node_positions = g.node_positions := by
  unfold Graph.update_hospital_capacity
  cases lookupA g.hospitals id with
  | none => exact ⟨rfl, rfl⟩
  | some info =>
    by_cases h : 0 ≤ info.capacity + d ∧ info.capacity + d ≤ info.max_capacity
    · simp [h]
    · simp [h]

theorem update_cap_true_iff (g : Graph) (id : String) (d : ℤ) :
    (g.update_hospital_capacity id d).1 = true ↔
      ∃ info, lookupA g.hospitals id = some info ∧
        0 ≤ info.capacity + d ∧ info.capacity + d ≤ info.max_capacity := by
  unfold Graph.update_hospital_capacity
  cases hl : lookupA g.hospitals id with
  | none => simp
  | some info =>
    by_cases h : 0 ≤ info.capacity + d ∧ info.capacity + d ≤ info.max_capacity
    · simp [h]
    · simp only [h, if_false]
      constructor
      · intro hc
        exact absurd hc (by simp)
      · rintro ⟨info', hi', hc'⟩
        rw [Option.some.injEq] at hi'
        exact absurd (hi' ▸ hc') h

theorem update_cap_commit (g : Graph) (id : String) (d : ℤ) (info : HospitalInfo)
    (hl : lookupA g.hospitals id = some info) (h0 : 0 ≤ info.capacity + d)
    (h1 : info.capacity + d ≤ info.max_capacity) :
    (g.update_hospital_capacity id d).2 =
      { g with hospitals := setk g.hospitals id ⟨info.capacity + d, info.max_capacity⟩ } := by
  unfold Graph.update_hospital_capacity
  rw [hl]
  simp [h0, h1]

theorem update_cap_false_frame (g : Graph) (id : String) (d : ℤ)
    (h : (g.update_hospital_capacity id d).1 = false) :
    (g.update_hospital_capacity id d).2 = g := by
  unfold Graph.update_hospital_capacity at h ⊢
  cases hl : lookupA g.hospitals id with
  | none => rfl
  | some info =>
    rw [hl] at h
    dsimp only at h ⊢
    by_cases hc : 0 ≤ info.capacity + d ∧ info.capacity + d ≤ info.max_capacity
    · rw [if_pos hc] at h
      exact absurd h (by simp)
    · rw [if_neg hc]

theorem update_cap_capok {g : Graph} (hok : CapOK g) (id : String) (d : ℤ) :
    CapOK (g.update_hospital_capacity id d).2 := by
  cases hb : (g.update_hospital_capacity id d).1 with
  | false => rw [update_cap_false_frame g id d hb]; exact hok
  | true =>
    obtain ⟨info, hl, h0, h1⟩ := (update_cap_true_iff g id d).mp hb
    rw [update_cap_commit g id d info hl h0 h1]
    intro p hp
    rcases mem_setk hp with h2 | h2
    · subst h2
      exact ⟨h0, h1⟩
    · exact hok p h2

theorem add_node_capok {g : Graph} (hok : CapOK g) (id : String) (x y : ℚ) (b : Bool)
    {c : ℤ} (hc : 0 ≤ c) : CapOK (g.add_node id x y b c) := by
  unfold Graph.add_node
  by_cases h : memKey g.graph id = true
  · rw [if_pos h]
    exact hok
  · rw [if_neg h]
    cases b with
    | false => exact hok
    | true =>
      intro p hp
      rw [show ((if (true : Bool) = true then setk g.hospitals id ⟨0, c⟩
          else g.hospitals) : List (String × HospitalInfo)) = setk g.hospitals id ⟨0, c⟩
        from if_pos rfl] at hp
      rcases mem_setk hp with h2 | h2
      · subst h2
        exact ⟨le_refl _, hc⟩
      · exact hok p h2

/-! ## Lemmas about `add_edge` -/

theorem add_edge_skip (g : Graph) (u v : String) (w : ℚ)
    (h : memKey g.graph u = false ∨ memKey g.graph v = false) :
    g.add_edge u v w = g := by
  unfold Graph.add_edge
  rw [if_neg]
  intro hc
  rw [Bool.and_eq_true] at hc
  rcases h with h1 | h1
  · rw [hc.1] at h1
    simp at h1
  · rw [hc.2] at h1
    simp at h1

theorem add_edge_frame (g : Graph) (u v : String) (w : ℚ) :
    (g.add_edge u v w).node_positions = g.node_positions ∧
    (g.add_edge u v w).hospitals = g.hospitals := by
  unfold Graph.add_edge
  by_cases h : (memKey g.graph u && memKey g.graph v) = true
  · rw [if_pos h]
    exact ⟨rfl, rfl⟩
  · rw [if_neg h]
    exact ⟨rfl, rfl⟩

theorem add_edge_adjOf (g : Graph) (u v : String) (w : ℚ)
    (hu : memKey g.graph u = true) (hv : memKey g.graph v = true) :
    adjOf (g.add_edge u v w) u = setk (adjOf g u) v w ∧
    adjOf (g.add_edge u v w) v =
      (if u = v then setk (adjOf g u) v w else setk (adjOf g v) u w) ∧
    (∀ x, x ≠ u → x ≠ v → adjOf (g.add_edge u v w) x = adjOf g x) := by
  unfold Graph.add_edge
  rw [if_pos (by rw [hu, hv]; rfl)]
  by_cases huv : u = v
  · subst huv
    have l1 : lookupA (setk g.graph u (setk (adjOf g u) u w)) u =
        some (setk (adjOf g u) u w) := lookupA_setk_self _ _ _
    refine ⟨?_, ?_, ?_⟩
    · show ((lookupA (setk (setk g.graph u (setk ((lookupA g.graph u).getD []) u w)) u
        (setk ((lookupA (setk g.graph u (setk ((lookupA g.graph u).getD []) u w)) u).getD [])
          u w)) u).getD []) = setk (adjOf g u) u w
      rw [show ((lookupA g.graph u).getD []) = adjOf g u from rfl, l1]
      rw [lookupA_setk_self]
      show setk (setk (adjOf g u) u w) u w = setk (adjOf g u) u w
      rw [setk_setk]
    · rw [if_pos rfl]
      show ((lookupA (setk (setk g.graph u (setk ((lookupA g.graph u).getD []) u w)) u
        (setk ((lookupA (setk g.graph u (setk ((lookupA g.graph u).getD []) u w)) u).getD [])
          u w)) u).getD []) = setk (adjOf g u) u w
      rw [show ((lookupA g.graph u).getD []) = adjOf g u from rfl, l1]
      rw [lookupA_setk_self]
      show setk (setk (adjOf g u) u w) u w = setk (adjOf g u) u w
      rw [setk_setk]
    · intro x hxu _
      show ((lookupA (setk (setk g.graph u _) u _) x).getD []) = adjOf g x
      rw [lookupA_setk_ne _ _ hxu, lookupA_setk_ne _ _ hxu]
      rfl
  · have l1 : lookupA (setk g.graph u (setk (adjOf g u) v w)) u =
        some (setk (adjOf g u) v w) := lookupA_setk_self _ _ _
    have l2 : lookupA (setk g.graph u (setk (adjOf g u) v w)) v = lookupA g.graph v :=
      lookupA_setk_ne _ _ (Ne.symm huv)
    refine ⟨?_, ?_, ?_⟩
    · show ((lookupA (setk (setk g.graph u (setk ((lookupA g.graph u).getD []) v w)) v
        (setk ((lookupA (setk g.graph u (setk ((lookupA g.graph u).getD []) v w)) v).getD [])
          u w)) u).getD []) = setk (adjOf g u) v w
      rw [show ((lookupA g.graph u).getD []) = adjOf g u from rfl]
      rw [lookupA_setk_ne _ _ huv, l1]
      rfl
    · rw [if_neg huv]
      show ((lookupA (setk (setk g.graph u (setk ((lookupA g.graph u).getD []) v w)) v
        (setk ((lookupA (setk g.graph u (setk ((lookupA g.graph u).getD []) v w)) v).getD [])
          u w)) v).getD []) = setk (adjOf g v) u w
      rw [show ((lookupA g.graph u).getD []) = adjOf g u from rfl]
      rw [lookupA_setk_self, l2]
      rfl
    · intro x hxu hxv
      show ((lookupA (setk (setk g.graph u _) v _) x).getD []) = adjOf g x
      rw [lookupA_setk_ne _ _ hxv, lookupA_setk_ne _ _ hxu]
      rfl

/-! ## Claim C3: occupancy stays within bounds -/

/-- C3: a `set_occupancy_delta` call returns `True` and commits
`occupied += delta` exactly when the hospital exists and the result lies in
`[0, max_capacity]`; otherwise it returns `False` and leaves all state
unchanged; consequently, along every sequence of such calls starting from
registration (which registers hospitals with `occupied = 0` within bounds),
every hospital's occupancy stays within `[0, max_capacity]`. -/
theorem claim_C3 :
    (∀ g : Graph, ∀ id : String, ∀ d : ℤ,
      ((g.update_hospital_capacity id d).1 = true ↔
        ∃ info, lookupA g.hospitals id = some info ∧
          0 ≤ info.capacity + d ∧ info.capacity + d ≤ info.max_capacity) ∧
      (∀ info, lookupA g.hospitals id = some info → 0 ≤ info.capacity + d →
        info.capacity + d ≤ info.max_capacity →
        (g.update_hospital_capacity id d).1 = true ∧
        (g.update_hospital_capacity id d).2 =
          { g with hospitals := setk g.hospitals id ⟨info.capacity + d, info.max_capacity⟩ }) ∧
      ((g.update_hospital_capacity id d).1 = false →
        (g.update_hospital_capacity id d).2 = g)) ∧
    (∀ g : Graph, CapOK g → ∀ calls : List (String × ℤ),
      CapOK (calls.foldl (fun gr c => (gr.update_hospital_capacity c.1 c.2).2) g)) ∧
    (∀ g : Graph, ∀ id : String, ∀ x y : ℚ, ∀ b : Bool, ∀ c : ℤ,
      CapOK g → 0 ≤ c → CapOK (g.add_node id x y b c)) := by
  refine ⟨?_, ?_, ?_⟩
  · intro g id d
    refine ⟨update_cap_true_iff g id d, ?_, update_cap_false_frame g id d⟩
    intro info hl h0 h1
    refine ⟨?_, update_cap_commit g id d info hl h0 h1⟩
    exact (update_cap_true_iff g id d).mpr ⟨info, hl, h0, h1⟩
  · intro g hok calls
    induction calls generalizing g with
    | nil => exact hok
    | cons c t ih =>
      exact ih _ (update_cap_capok hok c.1 c.2)
  · intro g id x y b c hok hc
    exact add_node_capok hok id x y b hc

/-- Witness for C3 on a concrete hospital of capacity 2. -/
theorem claim_C3_witness :
    (((Graph.empty.add_node "H" 0 0 true 2).update_hospital_capacity "H" 1).1 = true ∧
      ((Graph.empty.add_node "H" 0 0 true 2).update_hospital_capacity "H" 1).2 =
        { Graph.empty.add_node "H" 0 0 true 2 with hospitals := setk (Graph.empty.add_node "H" 0 0 true 2).hospitals "H" ⟨1, 2⟩ }) ∧
    (((Graph.empty.add_node "H" 0 0 true 2).update_hospital_capacity "H" 5).2 =
      Graph.empty.add_node "H" 0 0 true 2) ∧
    CapOK ([("H", 1), ("H", 1), ("H", 1)].foldl
      (fun gr c => (gr.update_hospital_capacity c.1 c.2).2)
      (Graph.empty.add_node "H" 0 0 true 2)) ∧
    CapOK ((Graph.empty.add_node "H" 0 0 true 2).add_node "X" 1 1 true 3) := by
  refine ⟨?_, ?_, ?_, ?_⟩
  · exact (claim_C3.1 (Graph.empty.add_node "H" 0 0 true 2) "H" 1).2.1 ⟨0, 2⟩
      (by decide) (by decide) (by decide)
  · exact (claim_C3.1 (Graph.empty.add_node "H" 0 0 true 2) "H" 5).2.2 (by decide)
  · exact claim_C3.2.1 (Graph.empty.add_node "H" 0 0 true 2) (by decide) _
  · exact claim_C3.2.2 (Graph.empty.add_node "H" 0 0 true 2) "X" 1 1 true 3
      (by decide) (by decide)

/-! ## Claim C6: `add_edge` semantics -/

/-- C6: `add_edge(u, v, w)` is a silent no-op when either endpoint is missing;
when both exist it overwrites an existing edge's weight in both directions
without adding a parallel entry, or else appends a new edge traversable in
both directions with cost `w`, leaving positions, hospitals, and the
adjacency of all other nodes unchanged. -/
theorem claim_C6 : ∀ g : Graph, ∀ u v : String, ∀ w : ℚ,
    ((memKey g.graph u = false ∨ memKey g.graph v = false) → g.add_edge u v w = g) ∧
    (memKey g.graph u = true → memKey g.graph v = true →
      (g.add_edge u v w).node_positions = g.node_positions ∧
      (g.add_edge u v w).hospitals = g.hospitals ∧
      lookupA (adjOf (g.add_edge u v w) u) v = some w ∧
      lookupA (adjOf (g.add_edge u v w) v) u = some w ∧
      (∀ x, x ≠ u → x ≠ v → adjOf (g.add_edge u v w) x = adjOf g x) ∧
      ((adjOf (g.add_edge u v w) u).map Prod.fst =
        if v ∈ (adjOf g u).map Prod.fst then (adjOf g u).map Prod.fst
        else (adjOf g u).map Prod.fst ++ [v]) ∧
      (u ≠ v → (adjOf (g.add_edge u v w) v).map Prod.fst =
        if u ∈ (adjOf g v).map Prod.fst then (adjOf g v).map Prod.fst
        else (adjOf g v).map Prod.fst ++ [u])) := by
  intro g u v w
  refine ⟨add_edge_skip g u v w, ?_⟩
  intro hu hv
  obtain ⟨ha1, ha2, ha3⟩ := add_edge_adjOf g u v w hu hv
  refine ⟨(add_edge_frame g u v w).1, (add_edge_frame g u v w).2, ?_, ?_, ha3, ?_, ?_⟩
  · rw [ha1]
    exact lookupA_setk_self _ _ _
  · rw [ha2]
    by_cases huv : u = v
    · rw [if_pos huv]
      subst huv
      exact lookupA_setk_self _ _ _
    · rw [if_neg huv]
      exact lookupA_setk_self _ _ _
  · rw [ha1]
    by_cases hm : v ∈ (adjOf g u).map Prod.fst
    · rw [if_pos hm, keys_setk_of_mem _ hm]
    · rw [if_neg hm, keys_setk_of_not_mem _ hm]
  · intro huv
    rw [ha2, if_neg huv]
    by_cases hm : u ∈ (adjOf g v).map Prod.fst
    · rw [if_pos hm, keys_setk_of_mem _ hm]
    · rw [if_neg hm, keys_setk_of_not_mem _ hm]

/-- Witness for C6 on a concrete two-node graph: an edge to an unknown node is
dropped, a fresh edge is traversable both ways, and re-adding overwrites. -/
theorem claim_C6_witness :
    (((Graph.empty.add_node "a" 0 0 false 0).add_node "b" 1 0 false 0).add_edge
        "a" "c" 1 =
      (Graph.empty.add_node "a" 0 0 false 0).add_node "b" 1 0 false 0) ∧
    lookupA (adjOf (((Graph.empty.add_node "a" 0 0 false 0).add_node
      "b" 1 0 false 0).add_edge "a" "b" 1) "a") "b" = some 1 ∧
    lookupA (adjOf (((Graph.empty.add_node "a" 0 0 false 0).add_node
      "b" 1 0 false 0).add_edge "a" "b" 1) "b") "a" = some 1 := by
  refine ⟨?_, ?_, ?_⟩
  · exact (claim_C6 ((Graph.empty.add_node "a" 0 0 false 0).add_node "b" 1 0 false 0)
      "a" "c" 1).1 (Or.inr (by decide))
  · exact ((claim_C6 ((Graph.empty.add_node "a" 0 0 false 0).add_node "b" 1 0 false 0)
      "a" "b" 1).2 (by decide) (by decide)).2.2.1
  · exact ((claim_C6 ((Graph.empty.add_node "a" 0 0 false 0).add_node "b" 1 0 false 0)
      "a" "b" 1).2 (by decide) (by decide)).2.2.2.1

/-! ## Claim C7: `add_node` idempotence -/

/-- C7: re-adding an existing node id, with any arguments, is a no-op: the
whole graph state (hence the node's position, hospital status, occupancy and
maximum capacity) is left exactly as it was after the first insertion. -/
theorem claim_C7 : ∀ g : Graph, ∀ id : String, ∀ x y : ℚ, ∀ b : Bool, ∀ c : ℤ,
    ∀ x' y' : ℚ, ∀ b' : Bool, ∀ c' : ℤ,
    (memKey g.graph id = true → g.add_node id x' y' b' c' = g) ∧
    (g.add_node id x y b c).add_node id x' y' b' c' = g.add_node id x y b c := by
  intro g id x y b c x' y' b' c'
  have base : ∀ g' : Graph, memKey g'.graph id = true → g'.add_node id x' y' b' c' = g' := by
    intro g' h
    unfold Graph.add_node
    rw [if_pos h]
  exact ⟨base g, base _ (add_node_mem g id x y b c)⟩

/-- Witness for C7: re-adding node `X` with different position, hospital flag
and capacity leaves the graph unchanged. -/
theorem claim_C7_witness :
    (Graph.empty.add_node "X" 1 2 true 3).add_node "X" 5 6 false 9 =
      Graph.empty.add_node "X" 1 2 true 3 :=
  (claim_C7 (Graph.empty.add_node "X" 1 2 true 3) "X" 1 2 true 3 5 6 false 9).1 (by decide)

/-! ## Claim C9: only `update_hospital_capacity` mutates state -/

/-- C9: the four query operations leave the whole graph state unchanged and
two consecutive identical calls agree, while `update_hospital_capacity`
touches neither the node set, positions, nor adjacency, and changes no
hospital entry other than the one addressed. -/
theorem claim_C9 : ∀ g : Graph, ∀ op : Op,
    (op.readsOnly →
      (applyOp g op).1 = g ∧ applyOp (applyOp g op).1 op = applyOp g op) ∧
    (∀ id : String, ∀ d : ℤ, op = Op.updateCapacity id d →
      (applyOp g op).1.graph = g.graph ∧
      (applyOp g op).1.node_positions = g.node_positions ∧
      ∀ h : String, h ≠ id →
        lookupA (applyOp g op).1.hospitals h = lookupA g.hospitals h) := by
  intro g op
  constructor
  · intro hro
    cases op with
    | addNode id x y b c => exact absurd hro (by simp [Op.readsOnly])
    | addEdge u v w => exact absurd hro (by simp [Op.readsOnly])
    | updateCapacity id d => exact absurd hro (by simp [Op.readsOnly])
    | findNearest o => exact ⟨rfl, rfl⟩
    | runDijkstra src => exact ⟨rfl, rfl⟩
    | availableHospitals => exact ⟨rfl, rfl⟩
    | pathDetails p => exact ⟨rfl, rfl⟩
  · rintro id d rfl
    dsimp only [applyOp]
    refine ⟨(update_cap_graph_frame g id d).1, (update_cap_graph_frame g id d).2, ?_⟩
    intro h hne
    cases hb : (g.update_hospital_capacity id d).1 with
    | false => rw [update_cap_false_frame g id d hb]
    | true =>
      obtain ⟨info, hl, h0, h1⟩ := (update_cap_true_iff g id d).mp hb
      rw [update_cap_commit g id d info hl h0 h1]
      exact lookupA_setk_ne _ _ hne

/-- Witness for C9: a query (`get_available_hospitals`) leaves a concrete
one-hospital graph unchanged, and a committed occupancy update preserves the
adjacency dict, the positions, and the other hospital's entry. -/
theorem claim_C9_witness :
    (applyOp (Graph.empty.add_node "H" 0 0 true 2) Op.availableHospitals).1 =
      Graph.empty.add_node "H" 0 0 true 2 ∧
    (applyOp ((Graph.empty.add_node "H" 0 0 true 2).add_node "K" 1 1 true 4)
        (Op.updateCapacity "H" 1)).1.graph =
      ((Graph.empty.add_node "H" 0 0 true 2).add_node "K" 1 1 true 4).graph ∧
    lookupA (applyOp ((Graph.empty.add_node "H" 0 0 true 2).add_node "K" 1 1 true 4)
        (Op.updateCapacity "H" 1)).1.hospitals "K" =
      lookupA ((Graph.empty.add_node "H" 0 0 true 2).add_node "K" 1 1 true 4).hospitals
        "K" := by
  refine ⟨?_, ?_, ?_⟩
  · exact ((claim_C9 (Graph.empty.add_node "H" 0 0 true 2) Op.availableHospitals).1
      trivial).1
  · exact ((claim_C9 ((Graph.empty.add_node "H" 0 0 true 2).add_node "K" 1 1 true 4)
      (Op.updateCapacity "H" 1)).2 "H" 1 rfl).1
  · exact ((claim_C9 ((Graph.empty.add_node "H" 0 0 true 2).add_node "K" 1 1 true 4)
      (Op.updateCapacity "H" 1)).2 "H" 1 rfl).2.2 "K" (by decide)

/-! ## Walk lemmas -/

theorem walkcost_nonneg {g : Graph} (hnn : NonNeg g) {u v : String} {c : ℚ}
    (h : WalkCost g u v c) : 0 ≤ c := by
  induction h with
  | refl => exact le_refl 0
  | step he _ ih => exact add_nonneg (nonNeg' hnn he) ih

theorem walkcost_append {g : Graph} {a u v : String} {c w : ℚ}
    (h : WalkCost g a u c) (he : (v, w) ∈ adjOf g u) : WalkCost g a v (c + w) := by
  induction h with
  | refl x =>
    rw [zero_add]
    have := WalkCost.step (g := g) he (WalkCost.refl v)
    rwa [add_zero] at this
  | step he' hw ih =>
    rw [add_assoc]
    exact WalkCost.step he' (ih he)

theorem walkcost_end_mem {g : Graph} (hwf : WF g) {a v : String} {c : ℚ}
    (h : WalkCost g a v c) (ha : a ∈ g.nodes) : v ∈ g.nodes := by
  induction h with
  | refl => exact ha
  | step he _ ih => exact ih (wf_closed' hwf he)

/-! ## Relaxation-step lemmas -/

theorem relaxOne_of_not_lt {u : String} {d : ℚ} {s : DState} {vw : String × ℚ}
    (h : ¬ (((d + vw.2 : ℚ) : WithTop ℚ) < DVal s vw.1)) : relaxOne u d s vw = s := by
  unfold relaxOne
  dsimp only
  unfold DVal at h
  rw [if_neg h]

theorem relaxOne_of_lt {u : String} {d : ℚ} {s : DState} {vw : String × ℚ}
    (h : ((d + vw.2 : ℚ) : WithTop ℚ) < DVal s vw.1) :
    relaxOne u d s vw =
      ⟨setk s.dist vw.1 ((d + vw.2 : ℚ) : WithTop ℚ),
        setk s.pred vw.1 (some u), s.pq ++ [(d + vw.2, vw.1)]⟩ := by
  unfold relaxOne
  dsimp only
  unfold DVal at h
  rw [if_pos h]

theorem DVal_setk_self (s : DState) (k : String) (x : WithTop ℚ) (p : List (String × Option String))
    (q : List (ℚ × String)) : DVal ⟨setk s.dist k x, p, q⟩ k = x := by
  unfold DVal
  rw [lookupA_setk_self]
  rfl

theorem DVal_setk_ne (s : DState) {k k' : String} (h : k' ≠ k) (x : WithTop ℚ)
    (p : List (String × Option String)) (q : List (ℚ × String)) :
    DVal ⟨setk s.dist k x, p, q⟩ k' = DVal s k' := by
  unfold DVal
  rw [lookupA_setk_ne _ _ h]

theorem PVal_setk_self (s : DState) (dd : List (String × WithTop ℚ)) (k : String)
    (x : Option String) (q : List (ℚ × String)) : PVal ⟨dd, setk s.pred k x, q⟩ k = x := by
  unfold PVal
  rw [lookupA_setk_self]
  rfl

theorem PVal_setk_ne (s : DState) (dd : List (String × WithTop ℚ)) {k k' : String}
    (h : k' ≠ k) (x : Option String) (q : List (ℚ × String)) :
    PVal ⟨dd, setk s.pred k x, q⟩ k' = PVal s k' := by
  unfold PVal
  rw [lookupA_setk_ne _ _ h]

theorem DVal_pq_irrel (s : DState) (q : List (ℚ × String)) (v : String) :
    DVal ⟨s.dist, s.pred, q⟩ v = DVal s v := rfl

/-! ## Predecessor-chain lemmas -/

theorem inChain_dval_le {s : DState} {p : String → Option String}
    (hmono : ∀ v u, p v = some u → DVal s u ≤ DVal s v) {x y : String}
    (h : InChain p x y) : DVal s y ≤ DVal s x := by
  induction h with
  | base => exact le_refl _
  | step hp _ ih => exact le_trans ih (hmono _ _ hp)

theorem reachesNone_update_avoid {p : String → Option String} {v : String}
    {q : Option String} {u : String} (h : ReachesNone p u) (hav : ¬ InChain p u v) :
    ReachesNone (fun x => if x = v then q else p x) u := by
  induction h with
  | stop hp =>
    rename_i z
    have hz : z ≠ v := fun he => hav (he ▸ InChain.base z)
    exact ReachesNone.stop (by simpa [hz] using hp)
  | step hp _ ih =>
    rename_i z z' _
    have hz : z ≠ v := fun he => hav (he ▸ InChain.base z)
    have hav' : ¬ InChain p z' v := fun hc => hav (InChain.step hp hc)
    exact ReachesNone.step (u := z') (by simpa [hz] using hp) (ih hav')

theorem reachesNone_update_all {p : String → Option String} {v : String}
    {q : Option String} (hv : ReachesNone (fun x => if x = v then q else p x) v) :
    ∀ x, ReachesNone p x → ReachesNone (fun x => if x = v then q else p x) x := by
  intro x hx
  induction hx with
  | stop hp =>
    rename_i z
    by_cases hz : z = v
    · exact hz ▸ hv
    · exact ReachesNone.stop (by simpa [hz] using hp)
  | step hp _ ih =>
    rename_i z z' _
    by_cases hz : z = v
    · exact hz ▸ hv
    · exact ReachesNone.step (u := z') (by simpa [hz] using hp) ih

/-! ## Single relaxation preserves the core invariant -/

theorem pval_mono_of_core {g : Graph} {a : String} {s : DState} (hnn : NonNeg g)
    (hcore : DInvCore g a s) : ∀ v u, PVal s v = some u → DVal s u ≤ DVal s v := by
  intro v u hp
  obtain ⟨_, _, w, hedge, hle⟩ := hcore.predEdge v u hp
  exact le_trans (le_add_of_nonneg_right (by exact_mod_cast nonNeg' hnn hedge)) hle

theorem relaxOne_pval_fun {u : String} {d : ℚ} {s : DState} {vw : String × ℚ}
    (hlt : ((d + vw.2 : ℚ) : WithTop ℚ) < DVal s vw.1) :
    PVal (relaxOne u d s vw) = fun x => if x = vw.1 then some u else PVal s x := by
  funext x
  rw [relaxOne_of_lt hlt]
  by_cases hx : x = vw.1
  · subst hx
    rw [if_pos rfl]
    exact PVal_setk_self s _ _ _ _
  · rw [if_neg hx]
    exact PVal_setk_ne s _ hx _ _

theorem relaxOne_preserve {g : Graph} {a u : String} {d : ℚ} {s : DState} {vw : String × ℚ}
    (hwf : WF g) (hnn : NonNeg g)
    (hcore : DInvCore g a s)
    (hu : u ∈ g.nodes)
    (hd0 : 0 ≤ d)
    (hdu : DVal s u = (d : WithTop ℚ))
    (hedge : vw ∈ adjOf g u) :
    DInvCore g a (relaxOne u d s vw) ∧
    DVal (relaxOne u d s vw) u = (d : WithTop ℚ) ∧
    (∀ x, DVal (relaxOne u d s vw) x ≤ DVal s x) ∧
    (∀ x, DVal s x ≤ (d : WithTop ℚ) → DVal (relaxOne u d s vw) x = DVal s x) ∧
    DVal (relaxOne u d s vw) vw.1 ≤ ((d + vw.2 : ℚ) : WithTop ℚ) ∧
    (∀ e ∈ s.pq, e ∈ (relaxOne u d s vw).pq) ∧
    (∀ e ∈ (relaxOne u d s vw).pq, e ∈ s.pq ∨ d ≤ e.1) ∧
    (relaxOne u d s vw).pq.length ≤ s.pq.length + 1 ∧
    (∀ x, x ≠ u → (DVal s x ≠ ⊤ → FreshRel g s x) →
      (DVal (relaxOne u d s vw) x ≠ ⊤ → FreshRel g (relaxOne u d s vw) x)) ∧
    (∀ x, Relaxed g s x → DVal s x ≤ (d : WithTop ℚ) → Relaxed g (relaxOne u d s vw) x) := by
  have hw0 : 0 ≤ vw.2 := nonNeg' hnn hedge
  by_cases hlt : ((d + vw.2 : ℚ) : WithTop ℚ) < DVal s vw.1
  case neg =>
    rw [relaxOne_of_not_lt hlt]
    refine ⟨hcore, hdu, fun x => le_refl _, fun x _ => rfl, le_of_not_lt hlt, ?_, ?_, ?_, ?_, ?_⟩
    · exact fun e he => he
    · exact fun e he => Or.inl he
    · exact Nat.le_succ _
    · exact fun x _ hf => hf
    · exact fun x hr _ => hr
  case pos =>
    have hne : vw.1 ≠ u := by
      intro he
      rw [he, hdu] at hlt
      have : d + vw.2 < d := by exact_mod_cast hlt
      linarith
    have hvmem : vw.1 ∈ g.nodes := wf_closed' hwf hedge
    have heq := relaxOne_of_lt (u := u) hlt
    have hdval_self : DVal (relaxOne u d s vw) vw.1 = ((d + vw.2 : ℚ) : WithTop ℚ) := by
      rw [heq]
      exact DVal_setk_self s _ _ _ _
    have hdval_ne : ∀ x, x ≠ vw.1 → DVal (relaxOne u d s vw) x = DVal s x := by
      intro x hx
      rw [heq]
      exact DVal_setk_ne s hx _ _ _
    have hpval := relaxOne_pval_fun (u := u) hlt
    have hpval_self : PVal (relaxOne u d s vw) vw.1 = some u := by
      rw [hpval]
      simp
    have hpval_ne : ∀ x, x ≠ vw.1 → PVal (relaxOne u d s vw) x = PVal s x := by
      intro x hx
      rw [hpval]
      simp [hx]
    have hpq : (relaxOne u d s vw).pq = s.pq ++ [(d + vw.2, vw.1)] := by
      rw [heq]
    have hmono : ∀ x, DVal (relaxOne u d s vw) x ≤ DVal s x := by
      intro x
      by_cases hx : x = vw.1
      · subst hx
        rw [hdval_self]
        exact le_of_lt hlt
      · rw [hdval_ne x hx]
    have hfrozen : ∀ x, DVal s x ≤ (d : WithTop ℚ) → DVal (relaxOne u d s vw) x = DVal s x := by
      intro x hxd
      by_cases hx : x = vw.1
      · subst hx
        exfalso
        have h1 : ((d + vw.2 : ℚ) : WithTop ℚ) < (d : WithTop ℚ) := lt_of_lt_of_le hlt hxd
        have : d + vw.2 < d := by exact_mod_cast h1
        linarith
      · exact hdval_ne x hx
    have hdu' : DVal (relaxOne u d s vw) u = (d : WithTop ℚ) := by
      rw [hdval_ne u (Ne.symm hne)]
      exact hdu
    have hvna : vw.1 ≠ a := by
      intro he
      have h0 : DVal s vw.1 = 0 := he ▸ hcore.srcZero
      rw [h0] at hlt
      have : ((d + vw.2 : ℚ) : WithTop ℚ) < ((0 : ℚ) : WithTop ℚ) := by
        exact_mod_cast hlt
      have : d + vw.2 < 0 := by exact_mod_cast this
      linarith
    have hrelfrozen : ∀ x, Relaxed g s x → DVal s x ≤ (d : WithTop ℚ) →
        Relaxed g (relaxOne u d s vw) x := by
      intro x hr hxd
      intro yw hyw
      calc DVal (relaxOne u d s vw) yw.1 ≤ DVal s yw.1 := hmono _
        _ ≤ DVal s x + (yw.2 : WithTop ℚ) := hr yw hyw
        _ = DVal (relaxOne u d s vw) x + (yw.2 : WithTop ℚ) := by rw [hfrozen x hxd]
    refine ⟨?_, hdu', hmono, hfrozen, le_of_eq hdval_self, ?_, ?_, ?_, ?_, hrelfrozen⟩
    · -- the core invariant
      refine ⟨?_, ?_, ?_, ?_, hcore.srcMem, ?_, ?_, ?_, ?_, ?_, ?_, ?_, ?_⟩
      · rw [heq]
        show (setk s.dist vw.1 _).map Prod.fst = g.nodes
        rw [keys_setk_of_mem _ (by rw [hcore.distKeys]; exact hvmem)]
        exact hcore.distKeys
      · rw [heq]
        show (setk s.pred vw.1 _).map Prod.fst = g.nodes
        rw [keys_setk_of_mem _ (by rw [hcore.predKeys]; exact hvmem)]
        exact hcore.predKeys
      · rw [hpq]
        intro e he
        rcases List.mem_append.mp he with h1 | h1
        · exact hcore.pqNodes e h1
        · simp only [List.mem_singleton] at h1
          subst h1
          exact hvmem
      · rw [hpq]
        intro e he
        rcases List.mem_append.mp he with h1 | h1
        · exact hcore.pqNonneg e h1
        · simp only [List.mem_singleton] at h1
          subst h1
          exact add_nonneg hd0 hw0
      · rw [hdval_ne a (Ne.symm hvna)]
        exact hcore.srcZero
      · rw [hpval_ne a (Ne.symm hvna)]
        exact hcore.srcPred
      · rw [hpq]
        intro e he
        rcases List.mem_append.mp he with h1 | h1
        · exact le_trans (hmono e.2) (hcore.pqGe e h1)
        · simp only [List.mem_singleton] at h1
          subst h1
          exact le_of_eq hdval_self
      · intro v c hv
        by_cases hx : v = vw.1
        · subst hx
          rw [hdval_self] at hv
          have hc : d + vw.2 = c := by exact_mod_cast hv
          subst hc
          have hwalk : WalkCost g a u d := hcore.sound u d hdu
          have hvw : vw = (vw.1, vw.2) := rfl
          exact walkcost_append hwalk (hvw ▸ hedge)
        · rw [hdval_ne v hx] at hv
          exact hcore.sound v c hv
      · intro v u' hv
        by_cases hx : v = vw.1
        · subst hx
          rw [hpval_self] at hv
          rw [Option.some.injEq] at hv
          subst hv
          refine ⟨hu, by rw [hdval_self]; exact WithTop.coe_ne_top, vw.2, ?_, ?_⟩
          · exact hedge
          · rw [hdu', hdval_self, wt_add_coe]
        · rw [hpval_ne v hx] at hv
          obtain ⟨hm, hfin, w', he', hle'⟩ := hcore.predEdge v u' hv
          refine ⟨hm, ?_, w', he', ?_⟩
          · rw [hdval_ne v hx]
            exact hfin
          · rw [hdval_ne v hx]
            exact le_trans (add_le_add_right (hmono u') _) hle'
      · intro v hv
        by_cases hx : v = vw.1
        · subst hx
          rw [hdval_self] at hv
          exact absurd hv WithTop.coe_ne_top
        · rw [hpval_ne v hx]
          exact hcore.predTop v (by rw [← hdval_ne v hx]; exact hv)
      · intro v hva hv
        by_cases hx : v = vw.1
        · subst hx
          rw [hpval_self]
          simp
        · rw [hpval_ne v hx]
          exact hcore.finitePred v hva (by rw [← hdval_ne v hx]; exact hv)
      · -- acyclicity of the new predecessor map
        have havoid : ¬ InChain (PVal s) u vw.1 := by
          intro hc
          have := inChain_dval_le (pval_mono_of_core hnn hcore) hc
          rw [hdu] at this
          have h2 : ((d + vw.2 : ℚ) : WithTop ℚ) < (d : WithTop ℚ) := lt_of_lt_of_le hlt this
          have : d + vw.2 < d := by exact_mod_cast h2
          linarith
        have hru : ReachesNone (fun x => if x = vw.1 then some u else PVal s x) u :=
          reachesNone_update_avoid (hcore.predTerm u) havoid
        have hrv : ReachesNone (fun x => if x = vw.1 then some u else PVal s x) vw.1 :=
          ReachesNone.step (by simp) hru
        intro v
        rw [hpval]
        exact reachesNone_update_all hrv v (hcore.predTerm v)
    · rw [hpq]
      intro e he
      exact List.mem_append.mpr (Or.inl he)
    · rw [hpq]
      intro e he
      rcases List.mem_append.mp he with h1 | h1
      · exact Or.inl h1
      · simp only [List.mem_singleton] at h1
        subst h1
        refine Or.inr ?_
        show d ≤ d + vw.2
        linarith
    · rw [hpq]
      simp
    · -- the frontier property for nodes other than u
      intro x hxu hf hfin
      by_cases hx : x = vw.1
      · subst hx
        left
        refine ⟨d + vw.2, ?_, ?_⟩
        · rw [hpq]
          exact List.mem_append.mpr (Or.inr (by simp))
        · rw [hdval_self]
      · rw [hdval_ne x hx] at hfin
        rcases hf hfin with ⟨k, hk, hkv⟩ | hr
        · left
          refine ⟨k, ?_, ?_⟩
          · rw [hpq]
            exact List.mem_append.mpr (Or.inl hk)
          · rw [hdval_ne x hx]
            exact hkv
        · right
          intro yw hyw
          calc DVal (relaxOne u d s vw) yw.1 ≤ DVal s yw.1 := hmono _
            _ ≤ DVal s x + (yw.2 : WithTop ℚ) := hr yw hyw
            _ = DVal (relaxOne u d s vw) x + (yw.2 : WithTop ℚ) := by rw [hdval_ne x hx]

/-! ## A full relaxation pass preserves the core invariant -/

theorem relaxFold_preserve {g : Graph} {a u : String} {d : ℚ}
    (hwf : WF g) (hnn : NonNeg g) (hu : u ∈ g.nodes) (hd0 : 0 ≤ d) :
    ∀ (l : List (String × ℚ)) (s : DState), (∀ vw ∈ l, vw ∈ adjOf g u) →
    DInvCore g a s → DVal s u = (d : WithTop ℚ) →
    (∀ x, x ≠ u → DVal s x ≠ ⊤ → FreshRel g s x) →
    DInvCore g a (l.foldl (relaxOne u d) s) ∧
    DVal (l.foldl (relaxOne u d) s) u = (d : WithTop ℚ) ∧
    (∀ x, DVal (l.foldl (relaxOne u d) s) x ≤ DVal s x) ∧
    (∀ x, DVal s x ≤ (d : WithTop ℚ) → DVal (l.foldl (relaxOne u d) s) x = DVal s x) ∧
    (∀ vw ∈ l, DVal (l.foldl (relaxOne u d) s) vw.1 ≤ ((d + vw.2 : ℚ) : WithTop ℚ)) ∧
    (∀ e ∈ s.pq, e ∈ (l.foldl (relaxOne u d) s).pq) ∧
    (∀ e ∈ (l.foldl (relaxOne u d) s).pq, e ∈ s.pq ∨ d ≤ e.1) ∧
    (l.foldl (relaxOne u d) s).pq.length ≤ s.pq.length + l.length ∧
    (∀ x, x ≠ u → DVal (l.foldl (relaxOne u d) s) x ≠ ⊤ →
      FreshRel g (l.foldl (relaxOne u d) s) x) ∧
    (∀ x, Relaxed g s x → DVal s x ≤ (d : WithTop ℚ) →
      Relaxed g (l.foldl (relaxOne u d) s) x) := by
  intro l
  induction l with
  | nil =>
    intro s _ hcore hdu hfr
    exact ⟨hcore, hdu, fun x => le_refl _, fun x _ => rfl, by simp, fun e he => he,
      fun e he => Or.inl he, by simp, hfr, fun x hr _ => hr⟩
  | cons vw rest ih =>
    intro s hmem hcore hdu hfr
    have hedge : vw ∈ adjOf g u := hmem vw (List.mem_cons_self _ _)
    obtain ⟨hcore1, hdu1, hmono1, hfroz1, hpart1, hsup1, hnew1, hlen1, hfr1, hrel1⟩ :=
      relaxOne_preserve (a := a) hwf hnn hcore hu hd0 hdu hedge
    have hmem' : ∀ x ∈ rest, x ∈ adjOf g u := fun x hx => hmem x (List.mem_cons_of_mem _ hx)
    have hfr' : ∀ x, x ≠ u → DVal (relaxOne u d s vw) x ≠ ⊤ →
        FreshRel g (relaxOne u d s vw) x := by
      intro x hxu hfin
      exact hfr1 x hxu (hfr x hxu) hfin
    obtain ⟨hcore2, hdu2, hmono2, hfroz2, hpart2, hsup2, hnew2, hlen2, hfr2, hrel2⟩ :=
      ih (relaxOne u d s vw) hmem' hcore1 hdu1 hfr'
    simp only [List.foldl_cons]
    refine ⟨hcore2, hdu2, ?_, ?_, ?_, ?_, ?_, ?_, hfr2, ?_⟩
    · exact fun x => le_trans (hmono2 x) (hmono1 x)
    · intro x hxd
      rw [hfroz2 x (by rw [hfroz1 x hxd]; exact hxd), hfroz1 x hxd]
    · intro yw hyw
      rcases List.mem_cons.mp hyw with h1 | h1
      · subst h1
        exact le_trans (hmono2 yw.1) hpart1
      · exact hpart2 yw h1
    · intro e he
      exact hsup2 e (hsup1 e he)
    · intro e he
      rcases hnew2 e he with h1 | h1
      · exact hnew1 e h1
      · exact Or.inr h1
    · calc (rest.foldl (relaxOne u d) (relaxOne u d s vw)).pq.length
          ≤ (relaxOne u d s vw).pq.length + rest.length := hlen2
        _ ≤ s.pq.length + 1 + rest.length := by omega
        _ = s.pq.length + (vw :: rest).length := by simp [List.length_cons]; omega
    · intro x hr hxd
      exact hrel2 x (hrel1 x hr hxd) (by rw [hfroz1 x hxd]; exact hxd)

/-! ## Loop-iteration lemmas -/

theorem dijkstraLoop_succ (g : Graph) (n : ℕ) (s : DState) :
    dijkstraLoop g (n + 1) s =
      match popMin s.pq with
      | none => s
      | some ((d, u), rest) =>
        if DVal s u < ((d : ℚ) : WithTop ℚ) then
          dijkstraLoop g n { s with pq := rest }
        else
          dijkstraLoop g n ((adjOf g u).foldl (relaxOne u d) { s with pq := rest }) := rfl

theorem foldl_relax_noop {u : String} {d : ℚ} {l : List (String × ℚ)} {s : DState}
    (h : ∀ vw ∈ l, ¬ (((d + vw.2 : ℚ) : WithTop ℚ) < DVal s vw.1)) :
    l.foldl (relaxOne u d) s = s := by
  induction l with
  | nil => rfl
  | cons vw rest ih =>
    rw [List.foldl_cons, relaxOne_of_not_lt (h vw (List.mem_cons_self _ _))]
    exact ih fun x hx => h x (List.mem_cons_of_mem _ hx)

theorem adj_length_le_totalAdj (g : Graph) (u : String) :
    (adjOf g u).length ≤ g.totalAdj := by
  unfold adjOf
  cases hl : lookupA g.graph u with
  | none => simp
  | some l =>
    have hmem : l.length ∈ g.graph.map fun p => p.2.length :=
      List.mem_map.mpr ⟨(u, l), lookupA_mem hl, rfl⟩
    exact List.single_le_sum (fun x _ => Nat.zero_le x) _ hmem

theorem pop_core {g : Graph} {a : String} {s : DState} {rest : List (ℚ × String)}
    (hcore : DInvCore g a s) (hsub : ∀ e ∈ rest, e ∈ s.pq) :
    DInvCore g a { s with pq := rest } := by
  refine ⟨hcore.distKeys, hcore.predKeys, ?_, ?_, hcore.srcMem, hcore.srcZero,
    hcore.srcPred, ?_, hcore.sound, hcore.predEdge, hcore.predTop, hcore.finitePred,
    hcore.predTerm⟩
  · exact fun e he => hcore.pqNodes e (hsub e he)
  · exact fun e he => hcore.pqNonneg e (hsub e he)
  · exact fun e he => hcore.pqGe e (hsub e he)

theorem pop_fresh {g : Graph} {a : String} {s : DState} {d : ℚ} {u : String}
    {rest : List (ℚ × String)} (hinv : DInv g a s)
    (hpop : popMin s.pq = some ((d, u), rest)) :
    ∀ x, x ≠ u → DVal { s with pq := rest } x ≠ ⊤ → FreshRel g { s with pq := rest } x := by
  intro x hxu hfin
  replace hfin : DVal s x ≠ ⊤ := hfin
  rcases hinv.fresh x hfin with ⟨k, hk, hkv⟩ | hr
  · left
    refine ⟨k, ?_, hkv⟩
    exact popMin_rest_mem_of_ne hpop hk (by simp [hxu])
  · exact Or.inr hr

theorem skip_fresh {g : Graph} {a : String} {s : DState} {d : ℚ} {u : String}
    {rest : List (ℚ × String)} (hinv : DInv g a s)
    (hpop : popMin s.pq = some ((d, u), rest))
    (hskip : DVal s u < ((d : ℚ) : WithTop ℚ)) :
    ∀ x, DVal { s with pq := rest } x ≠ ⊤ → FreshRel g { s with pq := rest } x := by
  intro x hfin
  replace hfin : DVal s x ≠ ⊤ := hfin
  by_cases hxu : x = u
  · subst hxu
    rcases hinv.fresh x hfin with ⟨k, hk, hkv⟩ | hr
    · exfalso
      have hdk : d ≤ k := (popMin_spec hpop).2.2 (k, x) hk
      have : DVal s x < (k : WithTop ℚ) :=
        lt_of_lt_of_le hskip (by exact_mod_cast hdk)
      rw [← hkv] at this
      exact lt_irrefl _ this
    · exact Or.inr hr
  · exact pop_fresh hinv hpop x hxu hfin

/-! ## The master loop lemma: termination and invariant preservation -/

theorem dijkstraLoop_correct {g : Graph} {a : String} (hwf : WF g) (hnn : NonNeg g) :
    ∀ (fuel : ℕ) (P : Finset String) (s : DState),
      DInv g a s → GhostInv g P s → dijkMeasure g P s ≤ fuel →
      DInv g a (dijkstraLoop g fuel s) ∧ (dijkstraLoop g fuel s).pq = [] := by
  intro fuel
  induction fuel with
  | zero =>
    intro P s hinv hg hm
    have hlen : s.pq.length = 0 := by
      unfold dijkMeasure at hm
      omega
    exact ⟨hinv, List.length_eq_zero.mp hlen⟩
  | succ n ih =>
    intro P s hinv hg hm
    rw [dijkstraLoop_succ]
    cases hpop : popMin s.pq with
    | none => exact ⟨hinv, (popMin_eq_none_iff s.pq).mp hpop⟩
    | some x =>
      obtain ⟨⟨d, u⟩, rest⟩ := x
      have hrest_sub : ∀ e ∈ rest, e ∈ s.pq := popMin_rest_subset hpop
      have hrest_len : rest.length + 1 = s.pq.length := popMin_rest_length hpop
      have hmem_pq : (d, u) ∈ s.pq := (popMin_spec hpop).1
      have hdmin : ∀ y ∈ s.pq, d ≤ y.1 := (popMin_spec hpop).2.2
      have hg_rest : GhostInv g P { s with pq := rest } :=
        ⟨fun z hz => hg.relaxedP z hz,
         fun z hz e he => hg.lowP z hz e (hrest_sub e he)⟩
      show DInv g a (if DVal s u < ((d : ℚ) : WithTop ℚ) then
          dijkstraLoop g n { s with pq := rest }
        else dijkstraLoop g n ((adjOf g u).foldl (relaxOne u d) { s with pq := rest })) ∧
        (if DVal s u < ((d : ℚ) : WithTop ℚ) then
          dijkstraLoop g n { s with pq := rest }
        else dijkstraLoop g n
          ((adjOf g u).foldl (relaxOne u d) { s with pq := rest })).pq = []
      by_cases hskip : DVal s u < ((d : ℚ) : WithTop ℚ)
      · rw [if_pos hskip]
        have hinv' : DInv g a { s with pq := rest } :=
          { pop_core hinv.toDInvCore hrest_sub with
            fresh := skip_fresh hinv hpop hskip }
        refine ih P { s with pq := rest } hinv' hg_rest ?_
        unfold dijkMeasure at hm ⊢
        simp only at hm ⊢
        omega
      · rw [if_neg hskip]
        have hdu : DVal s u = ((d : ℚ) : WithTop ℚ) :=
          le_antisymm (hinv.pqGe (d, u) hmem_pq) (le_of_not_lt hskip)
        have hu : u ∈ g.nodes := hinv.pqNodes (d, u) hmem_pq
        have hd0 : 0 ≤ d := hinv.pqNonneg (d, u) hmem_pq
        have hcore0 : DInvCore g a { s with pq := rest } :=
          pop_core hinv.toDInvCore hrest_sub
        by_cases hup : u ∈ P
        · -- u is already settled: every relaxation is a no-op
          have hrel_u : Relaxed g s u := hg.relaxedP u hup
          have hnoop : (adjOf g u).foldl (relaxOne u d) { s with pq := rest } =
              { s with pq := rest } := by
            apply foldl_relax_noop
            intro vw hvw
            have h1 : DVal s vw.1 ≤ DVal s u + (vw.2 : WithTop ℚ) := hrel_u vw hvw
            rw [hdu, wt_add_coe] at h1
            exact not_lt_of_le h1
          rw [hnoop]
          have hinv' : DInv g a { s with pq := rest } :=
            { hcore0 with
              fresh := by
                intro x hfin
                by_cases hxu : x = u
                · subst hxu
                  exact Or.inr hrel_u
                · exact pop_fresh hinv hpop x hxu hfin }
          refine ih P { s with pq := rest } hinv' hg_rest ?_
          unfold dijkMeasure at hm ⊢
          simp only at hm ⊢
          omega
        · -- settle u: run the full relaxation pass
          have hfr0 : ∀ x, x ≠ u → DVal { s with pq := rest } x ≠ ⊤ →
              FreshRel g { s with pq := rest } x :=
            fun x hxu hfin => pop_fresh hinv hpop x hxu hfin
          obtain ⟨hcoreT, hduT, hmonoT, hfrozT, hpartT, hsupT, hnewT, hlenT, hfrT, hrelT⟩ :=
            relaxFold_preserve (a := a) hwf hnn hu hd0 (adjOf g u) { s with pq := rest }
              (fun vw hvw => hvw) hcore0 hdu hfr0
          have hrelaxed_u : Relaxed g ((adjOf g u).foldl (relaxOne u d)
              { s with pq := rest }) u := by
            intro vw hvw
            rw [hduT, wt_add_coe]
            exact hpartT vw hvw
          have hinvT : DInv g a ((adjOf g u).foldl (relaxOne u d) { s with pq := rest }) :=
            { hcoreT with
              fresh := by
                intro x hfin
                by_cases hxu : x = u
                · subst hxu
                  exact Or.inr hrelaxed_u
                · exact hfrT x hxu hfin }
          have hlow_d : ∀ z ∈ P, DVal s z ≤ ((d : ℚ) : WithTop ℚ) :=
            fun z hz => hg.lowP z hz (d, u) hmem_pq
          have hgT : GhostInv g (insert u P)
              ((adjOf g u).foldl (relaxOne u d) { s with pq := rest }) := by
            constructor
            · intro z hz
              rcases Finset.mem_insert.mp hz with h1 | h1
              · exact h1 ▸ hrelaxed_u
              · exact hrelT z (hg.relaxedP z h1) (hlow_d z h1)
            · intro z hz e he
              have hdz : DVal ((adjOf g u).foldl (relaxOne u d) { s with pq := rest }) z ≤
                  ((d : ℚ) : WithTop ℚ) := by
                rcases Finset.mem_insert.mp hz with h1 | h1
                · rw [h1, hduT]
                · rw [hfrozT z (hlow_d z h1)]
                  exact hlow_d z h1
              rcases hnewT e he with h1 | h1
              · have hde : d ≤ e.1 := hdmin e (hrest_sub e h1)
                exact le_trans hdz (by exact_mod_cast hde)
              · exact le_trans hdz (by exact_mod_cast h1)
          refine ih (insert u P) _ hinvT hgT ?_
          -- the measure drops by at least two
          have hcard : u ∈ g.nodes.toFinset \ P := by
            rw [Finset.mem_sdiff]
            exact ⟨List.mem_toFinset.mpr hu, hup⟩
          have hsd : g.nodes.toFinset \ insert u P = (g.nodes.toFinset \ P).erase u := by
            ext z
            simp only [Finset.mem_sdiff, Finset.mem_insert, Finset.mem_erase]
            tauto
          have hcard1 : (g.nodes.toFinset \ insert u P).card + 1 =
              (g.nodes.toFinset \ P).card := by
            rw [hsd]
            exact Finset.card_erase_add_one hcard
          have hadj : (adjOf g u).length ≤ g.totalAdj := adj_length_le_totalAdj g u
          unfold dijkMeasure at hm ⊢
          have hlen2 : ((adjOf g u).foldl (relaxOne u d) { s with pq := rest }).pq.length ≤
              rest.length + (adjOf g u).length := hlenT
          have h2 : (1 + g.totalAdj) * ((g.nodes.toFinset \ insert u P).card + 1) =
              (1 + g.totalAdj) * (g.nodes.toFinset \ insert u P).card + (1 + g.totalAdj) := by
            ring
          rw [hcard1] at h2
          omega

/-! ## The initial state satisfies the invariant -/

theorem lookupA_map_pair {α β : Type} (l : List (String × α)) (c : β) (k : String) :
    lookupA (l.map fun p => (p.1, c)) k = none ∨
      lookupA (l.map fun p => (p.1, c)) k = some c := by
  induction l with
  | nil => exact Or.inl rfl
  | cons p t ih =>
    by_cases hp : p.1 = k
    · right
      simp [lookupA, hp]
    · simpa [lookupA, hp] using ih

theorem keys_map_pair {α β : Type} (l : List (String × α)) (c : β) :
    ((l.map fun p => (p.1, c)).map Prod.fst) = l.map Prod.fst := by
  simp

theorem init_dval_src (g : Graph) (a : String) :
    DVal (dijkstraInit g a) a = ((0 : ℚ) : WithTop ℚ) := by
  unfold DVal dijkstraInit
  rw [lookupA_setk_self]
  rfl

theorem init_dval_ne (g : Graph) {a x : String} (h : x ≠ a) :
    DVal (dijkstraInit g a) x = ⊤ := by
  unfold DVal dijkstraInit
  dsimp only
  rw [lookupA_setk_ne _ _ h]
  rcases lookupA_map_pair g.graph (⊤ : WithTop ℚ) x with h1 | h1
  · rw [h1]
    rfl
  · rw [h1]
    rfl

theorem init_pval (g : Graph) (a x : String) : PVal (dijkstraInit g a) x = none := by
  unfold PVal dijkstraInit
  dsimp only
  rcases lookupA_map_pair g.graph (none : Option String) x with h1 | h1
  · rw [h1]
    rfl
  · rw [h1]
    rfl

theorem init_inv {g : Graph} {a : String} (ha : a ∈ g.nodes) :
    DInv g a (dijkstraInit g a) := by
  have hka : a ∈ (g.graph.map fun p => (p.1, (⊤ : WithTop ℚ))).map Prod.fst := by
    rw [keys_map_pair]
    exact ha
  refine ⟨⟨?_, ?_, ?_, ?_, ha, init_dval_src g a, init_pval g a a, ?_, ?_, ?_, ?_, ?_, ?_⟩, ?_⟩
  · show (setk (g.graph.map fun p => (p.1, (⊤ : WithTop ℚ))) a _).map Prod.fst = g.nodes
    rw [keys_setk_of_mem _ hka, keys_map_pair]
    rfl
  · show ((g.graph.map fun p => (p.1, (none : Option String))).map Prod.fst) = g.nodes
    rw [keys_map_pair]
    rfl
  · intro e he
    simp only [dijkstraInit, List.mem_singleton] at he
    subst he
    exact ha
  · intro e he
    simp only [dijkstraInit, List.mem_singleton] at he
    subst he
    exact le_refl _
  · intro e he
    simp only [dijkstraInit, List.mem_singleton] at he
    subst he
    rw [init_dval_src]
  · intro v c hv
    by_cases hx : v = a
    · subst hx
      rw [init_dval_src] at hv
      have : (0 : ℚ) = c := by exact_mod_cast hv
      subst this
      exact WalkCost.refl _
    · rw [init_dval_ne g hx] at hv
      exact absurd hv.symm WithTop.coe_ne_top
  · intro v u hv
    rw [init_pval] at hv
    exact absurd hv (by simp)
  · intro v _
    exact init_pval g a v
  · intro v hva hfin
    exact absurd (init_dval_ne g hva) hfin
  · intro v
    exact ReachesNone.stop (init_pval g a v)
  · intro x hfin
    by_cases hx : x = a
    · subst hx
      left
      refine ⟨0, ?_, ?_⟩
      · show (0, x) ∈ [((0 : ℚ), x)]
        simp
      · rw [init_dval_src]
    · exact absurd (init_dval_ne g hx) hfin

theorem init_measure (g : Graph) (a : String) :
    dijkMeasure g ∅ (dijkstraInit g a) ≤ g.dijkstraFuel := by
  unfold dijkMeasure dijkstraInit Graph.dijkstraFuel
  simp only [Finset.sdiff_empty, List.length_singleton]
  have h1 : g.nodes.toFinset.card ≤ g.nodes.length := List.toFinset_card_le _
  have h2 : g.nodes.length = g.graph.length := by
    unfold Graph.nodes
    simp
  have h3 : (1 + g.totalAdj) * g.nodes.toFinset.card ≤
      (1 + g.totalAdj) * (g.graph.length + 1) :=
    Nat.mul_le_mul_left _ (by omega)
  omega

/-! ## Consequences at the final state -/

theorem final_relaxed {g : Graph} {a : String} {F : DState} (hinv : DInv g a F)
    (hemp : F.pq = []) : ∀ x, DVal F x ≠ ⊤ → Relaxed g F x := by
  intro x hfin
  rcases hinv.fresh x hfin with ⟨k, hk, _⟩ | hr
  · rw [hemp] at hk
    simp at hk
  · exact hr

theorem final_upper {g : Graph} {a : String} {F : DState} (hinv : DInv g a F)
    (hemp : F.pq = []) :
    ∀ u x : String, ∀ c : ℚ, WalkCost g u x c → DVal F u ≠ ⊤ →
      DVal F x ≤ DVal F u + ((c : ℚ) : WithTop ℚ) := by
  intro u x c hw
  induction hw with
  | refl v =>
    intro hfin
    rw [show (((0 : ℚ) : ℚ) : WithTop ℚ) = 0 from rfl, add_zero]
  | step he hw' ih =>
    rename_i u' v' x' w' c'
    intro hfin
    have hrel := final_relaxed hinv hemp u' hfin
    have h1 : DVal F v' ≤ DVal F u' + ((w' : ℚ) : WithTop ℚ) := hrel _ he
    have hfin' : DVal F v' ≠ ⊤ := by
      intro htop
      rw [htop] at h1
      obtain ⟨cu, hcu⟩ := wt_exists_coe hfin
      rw [hcu, wt_add_coe] at h1
      exact absurd (top_le_iff.mp h1) WithTop.coe_ne_top
    calc DVal F x' ≤ DVal F v' + (c' : WithTop ℚ) := ih hfin'
      _ ≤ (DVal F u' + (w' : WithTop ℚ)) + (c' : WithTop ℚ) := add_le_add_right h1 _
      _ = DVal F u' + ((w' + c' : ℚ) : WithTop ℚ) := by
          rw [add_assoc, wt_add_coe]

theorem final_opt {g : Graph} {a : String} {F : DState} (hinv : DInv g a F)
    (hemp : F.pq = []) :
    ∀ v : String, ∀ c : ℚ, WalkCost g a v c → DVal F v ≤ ((c : ℚ) : WithTop ℚ) := by
  intro v c hw
  have h := final_upper hinv hemp a v c hw (by rw [hinv.srcZero]; simp)
  rw [hinv.srcZero, zero_add] at h
  exact h

theorem final_char_reach {g : Graph} {a : String} {F : DState} (hnn : NonNeg g)
    (hinv : DInv g a F) (hemp : F.pq = []) {v : String} (hr : Reachable g a v) :
    ∃ c : ℚ, DVal F v = ((c : ℚ) : WithTop ℚ) ∧ 0 ≤ c ∧ IsShortestDist g a v c := by
  obtain ⟨c0, hw0⟩ := hr
  have hle := final_opt hinv hemp v c0 hw0
  have hfin : DVal F v ≠ ⊤ := by
    intro htop
    rw [htop] at hle
    exact absurd (top_le_iff.mp hle) WithTop.coe_ne_top
  obtain ⟨c, hc⟩ := wt_exists_coe hfin
  refine ⟨c, hc, ?_, ?_, ?_⟩
  · exact walkcost_nonneg hnn (hinv.sound v c hc)
  · exact hinv.sound v c hc
  · intro c' hw'
    have := final_opt hinv hemp v c' hw'
    rw [hc] at this
    exact_mod_cast this

theorem final_char_unreach {g : Graph} {a : String} {F : DState}
    (hinv : DInv g a F) {v : String} (hr : ¬ Reachable g a v) :
    DVal F v = ⊤ ∧ PVal F v = none := by
  have htop : DVal F v = ⊤ := by
    by_contra hfin
    obtain ⟨c, hc⟩ := wt_exists_coe hfin
    exact hr ⟨c, hinv.sound v c hc⟩
  exact ⟨htop, hinv.predTop v htop⟩

theorem final_pred_exact {g : Graph} {a : String} {F : DState} (hinv : DInv g a F)
    (hemp : F.pq = []) {v u : String} (hp : PVal F v = some u) :
    u ∈ g.nodes ∧ DVal F v ≠ ⊤ ∧ DVal F u ≠ ⊤ ∧
      ∃ w : ℚ, (v, w) ∈ adjOf g u ∧ DVal F v = DVal F u + ((w : ℚ) : WithTop ℚ) := by
  obtain ⟨hu, hfinv, w, hedge, hle⟩ := hinv.predEdge v u hp
  have hfinu : DVal F u ≠ ⊤ := by
    intro htop
    rw [htop] at hle
    rw [top_add] at hle
    exact hfinv (top_le_iff.mp hle)
  have hge : DVal F v ≤ DVal F u + ((w : ℚ) : WithTop ℚ) :=
    final_relaxed hinv hemp u hfinu (v, w) hedge
  exact ⟨hu, hfinv, hfinu, w, hedge, le_antisymm hge hle⟩

/-! ## Packaging of `Graph.dijkstra` -/

theorem memKey_iff_nodes (g : Graph) (k : String) :
    memKey g.graph k = true ↔ k ∈ g.nodes := by
  unfold memKey
  exact lookupA_isSome_iff _ _

theorem dijkstra_eq_final {g : Graph} {a : String} (ha : a ∈ g.nodes) :
    g.dijkstra a = ((dijkstraFinal g a).dist, (dijkstraFinal g a).pred) := by
  unfold Graph.dijkstra
  rw [if_pos ((memKey_iff_nodes g a).mpr ha)]
  rfl

theorem dijkstra_unknown {g : Graph} {a : String} (ha : a ∉ g.nodes) :
    g.dijkstra a = ([], []) := by
  unfold Graph.dijkstra
  rw [if_neg]
  intro h
  exact ha ((memKey_iff_nodes g a).mp h)

theorem dijkstra_correct {g : Graph} {a : String} (hwf : WF g) (hnn : NonNeg g)
    (ha : a ∈ g.nodes) :
    DInv g a (dijkstraFinal g a) ∧ (dijkstraFinal g a).pq = [] :=
  dijkstraLoop_correct hwf hnn g.dijkstraFuel ∅ (dijkstraInit g a) (init_inv ha)
    ⟨fun z hz => absurd hz (Finset.not_mem_empty z),
     fun z hz => absurd hz (Finset.not_mem_empty z)⟩
    (init_measure g a)

theorem lookupA_eq_DVal {s : DState} {v : String} (h : v ∈ s.dist.map Prod.fst) :
    lookupA s.dist v = some (DVal s v) := by
  unfold DVal
  cases hl : lookupA s.dist v with
  | none => exact absurd ((lookupA_eq_none_iff _ _).mp hl) (by simpa using h)
  | some x => rfl

theorem lookupA_eq_PVal {s : DState} {v : String} (h : v ∈ s.pred.map Prod.fst) :
    lookupA s.pred v = some (PVal s v) := by
  unfold PVal
  cases hl : lookupA s.pred v with
  | none => exact absurd ((lookupA_eq_none_iff _ _).mp hl) (by simpa using h)
  | some x => rfl

/-! ## Claim C2: Dijkstra computes shortest distances -/

/-- C2: on a well-formed graph with non-negative edge weights and a source in
the graph, `dijkstra` returns for every node the minimum cost over all paths
from the source (a non-negative finite distance that lower-bounds every
explicit alternate path), `+infinity` distance and `None` predecessor for
unreachable nodes, and two empty maps when the source is unknown. -/
theorem claim_C2 : ∀ g : Graph, ∀ a : String, WF g → NonNeg g →
    ((a ∈ g.nodes →
      ∀ v ∈ g.nodes,
        (Reachable g a v →
          ∃ c : ℚ, lookupA (g.dijkstra a).1 v = some ((c : ℚ) : WithTop ℚ) ∧ 0 ≤ c ∧
            IsShortestDist g a v c) ∧
        (¬ Reachable g a v →
          lookupA (g.dijkstra a).1 v = some ⊤ ∧
            lookupA (g.dijkstra a).2 v = some none)) ∧
    (a ∉ g.nodes → g.dijkstra a = ([], []))) := by
  intro g a hwf hnn
  refine ⟨?_, fun ha => dijkstra_unknown ha⟩
  intro ha v hv
  obtain ⟨hinv, hemp⟩ := dijkstra_correct hwf hnn ha
  have hdk : v ∈ (dijkstraFinal g a).dist.map Prod.fst := by
    rw [hinv.distKeys]
    exact hv
  have hpk : v ∈ (dijkstraFinal g a).pred.map Prod.fst := by
    rw [hinv.predKeys]
    exact hv
  rw [dijkstra_eq_final ha]
  constructor
  · intro hr
    obtain ⟨c, hc, hc0, hsd⟩ := final_char_reach hnn hinv hemp hr
    refine ⟨c, ?_, hc0, hsd⟩
    rw [lookupA_eq_DVal hdk, hc]
  · intro hr
    obtain ⟨htop, hnone⟩ := final_char_unreach hinv hr
    constructor
    · rw [lookupA_eq_DVal hdk, htop]
    · rw [lookupA_eq_PVal hpk, hnone]

set_option maxRecDepth 40000 in
/-- Witness for C2 on the sample map: from source `I`, node `J` gets its
shortest distance 2. -/
theorem claim_C2_witness :
    ∃ c : ℚ, lookupA (create_sample_map.dijkstra "I").1 "J" =
        some ((c : ℚ) : WithTop ℚ) ∧ 0 ≤ c ∧
      IsShortestDist create_sample_map "I" "J" c :=
  ((claim_C2 create_sample_map "I"
      (by constructor <;> with_unfolding_all decide)
      (by with_unfolding_all decide)).1
    (by with_unfolding_all decide) "J" (by with_unfolding_all decide)).1
    ⟨2 + 0, WalkCost.step (by with_unfolding_all decide) (WalkCost.refl "J")⟩

/-! ## Selection-loop lemmas -/

theorem sel_go (dist : List (String × WithTop ℚ)) :
    ∀ (hs : List String) (acc : Option String × WithTop ℚ),
    (∀ h0, acc.1 = some h0 → lookupA dist h0 = some acc.2 ∧ acc.2 < ⊤) →
    (acc.1 = none → acc.2 = ⊤) →
    (∀ h0, (hs.foldl (considerHospital dist) acc).1 = some h0 →
      (acc.1 = some h0 ∨ h0 ∈ hs) ∧
      lookupA dist h0 = some (hs.foldl (considerHospital dist) acc).2 ∧
      (hs.foldl (considerHospital dist) acc).2 < ⊤) ∧
    ((hs.foldl (considerHospital dist) acc).1 = none → acc.1 = none) ∧
    (hs.foldl (considerHospital dist) acc).2 ≤ acc.2 ∧
    (∀ h ∈ hs, ∀ dh, lookupA dist h = some dh →
      (hs.foldl (considerHospital dist) acc).2 ≤ dh) ∧
    ((hs.foldl (considerHospital dist) acc).1 = none →
      ∀ h ∈ hs, ∀ dh, lookupA dist h = some dh → ¬ dh < ⊤) := by
  intro hs
  induction hs with
  | nil =>
    intro acc hsome hnone
    exact ⟨fun h0 hh => ⟨Or.inl hh, (hsome h0 hh).1, (hsome h0 hh).2⟩,
      fun hh => hh, le_refl _, by simp, by simp⟩
  | cons h t ih =>
    intro acc hsome hnone
    simp only [List.foldl_cons]
    rcases hlk : lookupA dist h with _ | dh
    · have hstep : considerHospital dist acc h = acc := by
        unfold considerHospital
        rw [hlk]
      rw [hstep]
      obtain ⟨i1, i2, i3, i4, i5⟩ := ih acc hsome hnone
      refine ⟨?_, i2, i3, ?_, ?_⟩
      · intro h0 hh
        obtain ⟨m1, m2, m3⟩ := i1 h0 hh
        refine ⟨?_, m2, m3⟩
        rcases m1 with m1 | m1
        · exact Or.inl m1
        · exact Or.inr (List.mem_cons_of_mem _ m1)
      · intro h' hh' dh' hdh'
        rcases List.mem_cons.mp hh' with h1 | h1
        · subst h1
          rw [hlk] at hdh'
          exact absurd hdh' (by simp)
        · exact i4 h' h1 dh' hdh'
      · intro hres h' hh' dh' hdh'
        rcases List.mem_cons.mp hh' with h1 | h1
        · subst h1
          rw [hlk] at hdh'
          exact absurd hdh' (by simp)
        · exact i5 hres h' h1 dh' hdh'
    · by_cases hlt : dh < acc.2
      · have hstep : considerHospital dist acc h = (some h, dh) := by
          unfold considerHospital
          rw [hlk]
          dsimp only
          rw [if_pos hlt]
        rw [hstep]
        have hsome' : ∀ h0, (some h, dh).1 = some h0 →
            lookupA dist h0 = some (some h, dh).2 ∧ (some h, dh).2 < ⊤ := by
          intro h0 hh
          rw [Option.some.injEq] at hh
          subst hh
          refine ⟨hlk, ?_⟩
          exact lt_of_lt_of_le hlt le_top
        obtain ⟨i1, i2, i3, i4, i5⟩ := ih (some h, dh) hsome' (by simp)
        refine ⟨?_, ?_, ?_, ?_, ?_⟩
        · intro h0 hh
          obtain ⟨m1, m2, m3⟩ := i1 h0 hh
          refine ⟨?_, m2, m3⟩
          rcases m1 with m1 | m1
          · rw [Option.some.injEq] at m1
            exact Or.inr (m1 ▸ List.mem_cons_self _ _)
          · exact Or.inr (List.mem_cons_of_mem _ m1)
        · intro hres
          exact absurd (i2 hres) (by simp)
        · exact le_trans i3 (le_of_lt hlt)
        · intro h' hh' dh' hdh'
          rcases List.mem_cons.mp hh' with h1 | h1
          · subst h1
            rw [hlk] at hdh'
            rw [Option.some.injEq] at hdh'
            exact hdh' ▸ i3
          · exact i4 h' h1 dh' hdh'
        · intro hres
          exact absurd (i2 hres) (by simp)
      · have hstep : considerHospital dist acc h = acc := by
          unfold considerHospital
          rw [hlk]
          dsimp only
          rw [if_neg hlt]
        rw [hstep]
        obtain ⟨i1, i2, i3, i4, i5⟩ := ih acc hsome hnone
        refine ⟨?_, i2, i3, ?_, ?_⟩
        · intro h0 hh
          obtain ⟨m1, m2, m3⟩ := i1 h0 hh
          refine ⟨?_, m2, m3⟩
          rcases m1 with m1 | m1
          · exact Or.inl m1
          · exact Or.inr (List.mem_cons_of_mem _ m1)
        · intro h' hh' dh' hdh'
          rcases List.mem_cons.mp hh' with h1 | h1
          · subst h1
            rw [hlk] at hdh'
            rw [Option.some.injEq] at hdh'
            subst hdh'
            exact le_trans i3 (le_of_not_lt hlt)
          · exact i4 h' h1 dh' hdh'
        · intro hres h' hh' dh' hdh'
          rcases List.mem_cons.mp hh' with h1 | h1
          · subst h1
            rw [hlk] at hdh'
            rw [Option.some.injEq] at hdh'
            subst hdh'
            intro htop
            have hacc : acc.2 = ⊤ := hnone (i2 hres)
            rw [hacc] at hlt
            exact hlt htop
          · exact i5 hres h' h1 dh' hdh'

theorem sel_spec (dist : List (String × WithTop ℚ)) (hs : List String) :
    (∀ h0, (hs.foldl (considerHospital dist) (none, ⊤)).1 = some h0 →
      h0 ∈ hs ∧ lookupA dist h0 = some (hs.foldl (considerHospital dist) (none, ⊤)).2 ∧
      (hs.foldl (considerHospital dist) (none, ⊤)).2 < ⊤) ∧
    (∀ h ∈ hs, ∀ dh, lookupA dist h = some dh →
      (hs.foldl (considerHospital dist) (none, ⊤)).2 ≤ dh) ∧
    ((hs.foldl (considerHospital dist) (none, ⊤)).1 = none →
      ∀ h ∈ hs, ∀ dh, lookupA dist h = some dh → ¬ dh < ⊤) := by
  obtain ⟨i1, _, _, i4, i5⟩ := sel_go dist hs (none, ⊤) (by simp) (fun _ => rfl)
  refine ⟨?_, i4, i5⟩
  intro h0 hh
  obtain ⟨m1, m2, m3⟩ := i1 h0 hh
  rcases m1 with m1 | m1
  · exact absurd m1 (by simp)
  · exact ⟨m1, m2, m3⟩

/-! ## Available-hospital lemmas -/

theorem mem_available_iff {g : Graph} (hwf : WF g) (h : String) :
    h ∈ g.get_available_hospitals ↔ AvailableH g h := by
  unfold Graph.get_available_hospitals AvailableH
  constructor
  · intro hm
    obtain ⟨p, hp, hfst⟩ := List.mem_map.mp hm
    obtain ⟨hpm, hpf⟩ := List.mem_filter.mp hp
    refine ⟨p.2, ?_, by simpa using hpf⟩
    subst hfst
    exact lookupA_of_nodup_mem hwf.nodupHosp (by simpa using hpm)
  · rintro ⟨info, hl, hc⟩
    refine List.mem_map.mpr ⟨(h, info), ?_, rfl⟩
    refine List.mem_filter.mpr ⟨lookupA_mem hl, by simpa using hc⟩

theorem available_isEmpty_iff {g : Graph} (hwf : WF g) :
    g.get_available_hospitals.isEmpty = true ↔ ¬ ∃ h, AvailableH g h := by
  rw [List.isEmpty_iff]
  constructor
  · intro he ⟨h, hav⟩
    have := (mem_available_iff hwf h).mpr hav
    rw [he] at this
    simp at this
  · intro hno
    by_contra hne
    obtain ⟨h, hm⟩ := List.exists_mem_of_ne_nil _ hne
    exact hno ⟨h, (mem_available_iff hwf h).mp hm⟩

/-! ## Chain-list lemmas -/

theorem reachesNone_chainList {p : String → Option String} {v : String}
    (h : ReachesNone p v) : ∃ l, ChainList p v l := by
  induction h with
  | stop hp => exact ⟨_, ChainList.stop hp⟩
  | step hp _ ih =>
    obtain ⟨l, hl⟩ := ih
    exact ⟨_, ChainList.step hp hl⟩

theorem chainList_unique {p : String → Option String} {v : String} {l1 l2 : List String}
    (h1 : ChainList p v l1) (h2 : ChainList p v l2) : l1 = l2 := by
  induction h1 generalizing l2 with
  | stop hp =>
    cases h2 with
    | stop hp2 => rfl
    | step hp2 _ => rw [hp] at hp2; exact absurd hp2 (by simp)
  | step hp hc ih =>
    cases h2 with
    | stop hp2 => rw [hp] at hp2; exact absurd hp2 (by simp)
    | step hp2 hc2 =>
      rw [hp] at hp2
      rw [Option.some.injEq] at hp2
      subst hp2
      rw [ih hc2]

theorem chainList_ne_nil {p : String → Option String} {v : String} {l : List String}
    (h : ChainList p v l) : l ≠ [] := by
  cases h <;> simp

theorem chainList_head {p : String → Option String} {v : String} {l : List String}
    (h : ChainList p v l) : ∃ t, l = v :: t := by
  cases h with
  | stop _ => exact ⟨[], rfl⟩
  | step _ _ => exact ⟨_, rfl⟩

theorem chainList_last {p : String → Option String} {v : String} {l : List String}
    (h : ChainList p v l) : ∃ z, l.getLast? = some z ∧ p z = none := by
  induction h with
  | stop hp => exact ⟨_, rfl, hp⟩
  | step hp hc ih =>
    obtain ⟨z, hz, hpz⟩ := ih
    refine ⟨z, ?_, hpz⟩
    rename_i v' u' l'
    rw [List.getLast?_cons, hz]
    cases hl' : l' with
    | nil => exact absurd hl' (chainList_ne_nil hc)
    | cons y t => simp

theorem chainList_suffix_mem {p : String → Option String} {v : String} {l : List String}
    (h : ChainList p v l) : ∀ x ∈ l, ∃ l', ChainList p x l' ∧ l'.length ≤ l.length := by
  induction h with
  | stop hp =>
    intro x hx
    simp only [List.mem_singleton] at hx
    subst hx
    exact ⟨_, ChainList.stop hp, le_refl _⟩
  | step hp hc ih =>
    intro x hx
    rcases List.mem_cons.mp hx with h1 | h1
    · subst h1
      exact ⟨_, ChainList.step hp hc, le_refl _⟩
    · obtain ⟨l', hl', hlen⟩ := ih x h1
      exact ⟨l', hl', le_trans hlen (by simp)⟩

theorem chainList_nodup {p : String → Option String} {v : String} {l : List String}
    (h : ChainList p v l) : l.Nodup := by
  induction h with
  | stop _ => simp
  | step hp hc ih =>
    rename_i v' u' l'
    refine List.nodup_cons.mpr ⟨?_, ih⟩
    intro hmem
    obtain ⟨l'', hl'', hlen⟩ := chainList_suffix_mem hc v' hmem
    have := chainList_unique hl'' (ChainList.step hp hc)
    rw [this] at hlen
    simp at hlen

theorem buildPath_none (pred : List (String × Option String)) (fuel : ℕ)
    (acc : List String) : buildPath pred fuel none acc = acc := by
  cases fuel <;> rfl

theorem chainList_buildPath {pred : List (String × Option String)} {v : String}
    {l : List String} (h : ChainList (fun x => (lookupA pred x).getD none) v l) :
    ∀ (acc : List String) (fuel : ℕ), l.length ≤ fuel →
      buildPath pred fuel (some v) acc = acc ++ l := by
  induction h with
  | stop hp =>
    intro acc fuel hfuel
    cases fuel with
    | zero => simp at hfuel
    | succ n =>
      show buildPath pred n ((lookupA pred _).getD none) (acc ++ [_]) = _
      rw [hp, buildPath_none]
  | step hp hc ih =>
    rename_i v' u' l'
    intro acc fuel hfuel
    cases fuel with
    | zero => simp at hfuel
    | succ n =>
      show buildPath pred n ((lookupA pred v').getD none) (acc ++ [v']) = _
      rw [hp, ih (acc ++ [v']) n (by simpa using hfuel)]
      simp

/-! ## Chains at the final Dijkstra state -/

theorem dval_finite_mem {g : Graph} {a : String} {s : DState} (hinv : DInvCore g a s)
    {v : String} (hfin : DVal s v ≠ ⊤) : v ∈ g.nodes := by
  by_contra hv
  apply hfin
  unfold DVal
  rw [(lookupA_eq_none_iff _ _).mpr (by rw [hinv.distKeys]; exact hv)]
  rfl

theorem final_chain_props {g : Graph} {a : String} {F : DState} (hwf : WF g)
    (_hnn : NonNeg g) (hinv : DInv g a F) (hemp : F.pq = []) :
    ∀ v l, ChainList (PVal F) v l → DVal F v ≠ ⊤ →
      (∀ x ∈ l, x ∈ g.nodes ∧ DVal F x ≠ ⊤) ∧
      l.getLast? = some a ∧
      List.Chain' (fun q p => ∃ w : ℚ, lookupA (adjOf g p) q = some w ∧
        DVal F q = DVal F p + (w : WithTop ℚ)) l := by
  intro v l hl
  induction hl with
  | stop hp =>
    intro hfin
    rename_i z
    have hz : z = a := by
      by_contra hza
      exact hinv.finitePred z hza hfin hp
    subst hz
    exact ⟨by simp [dval_finite_mem hinv.toDInvCore hfin, hfin], by simp, by simp⟩
  | step hp hc ih =>
    intro hfin
    rename_i v' u' l'
    obtain ⟨hu'mem, _, hfu', w, hedge, hexact⟩ := final_pred_exact hinv hemp hp
    obtain ⟨ih1, ih2, ih3⟩ := ih hfu'
    refine ⟨?_, ?_, ?_⟩
    · intro x hx
      rcases List.mem_cons.mp hx with h1 | h1
      · subst h1
        exact ⟨dval_finite_mem hinv.toDInvCore hfin, hfin⟩
      · exact ih1 x h1
    · rw [List.getLast?_cons, ih2]
      cases hl' : l' with
      | nil => exact absurd hl' (chainList_ne_nil hc)
      | cons y t => simp
    · obtain ⟨t, ht⟩ := chainList_head hc
      subst ht
      refine List.chain'_cons.mpr ⟨?_, ih3⟩
      refine ⟨w, ?_, hexact⟩
      exact lookupA_of_nodup_mem (wf_adjNodup' g hwf u') hedge

/-! ## Path-details telescoping -/

theorem nodup_subset_length {l m : List String} (hnd : l.Nodup) (hsub : ∀ x ∈ l, x ∈ m) :
    l.length ≤ m.length := by
  calc l.length = l.toFinset.card := (List.toFinset_card_of_nodup hnd).symm
    _ ≤ m.toFinset.card := Finset.card_le_card fun x hx =>
        List.mem_toFinset.mpr (hsub x (List.mem_toFinset.mp hx))
    _ ≤ m.length := List.toFinset_card_le _

theorem pathDetailsLoop_cons_cons {g : Graph} {x y : String} {rest : List String}
    {w : ℚ} (hlk : lookupA (adjOf g x) y = some w)
    (lastw : Option ℚ) (t : ℚ) (segs : List (String × String × ℚ)) :
    pathDetailsLoop g (x :: y :: rest) lastw t segs =
      pathDetailsLoop g (y :: rest) (some w) (t + w) (segs ++ [(x, y, w)]) := by
  show (match (match lookupA (adjOf g x) y with | some w => some w | none => lastw) with
    | none => none
    | some w => pathDetailsLoop g (y :: rest) (some w) (t + w) (segs ++ [(x, y, w)])) = _
  rw [hlk]

theorem pathDetails_telescope {g : Graph} {F : DState} :
    ∀ (xs : List String) (x : String) (dx t : ℚ) (segs : List (String × String × ℚ))
      (lastw : Option ℚ),
    DVal F x = ((dx : ℚ) : WithTop ℚ) →
    List.Chain' (fun p q => ∃ w : ℚ, lookupA (adjOf g p) q = some w ∧
      DVal F q = DVal F p + (w : WithTop ℚ)) (x :: xs) →
    ∃ T segs2, pathDetailsLoop g (x :: xs) lastw t segs = some (T, segs2) ∧
      ∀ z, (x :: xs).getLast? = some z →
        DVal F z = ((dx + (T - t) : ℚ) : WithTop ℚ) := by
  intro xs
  induction xs with
  | nil =>
    intro x dx t segs lastw hdx _
    refine ⟨t, segs, rfl, ?_⟩
    intro z hz
    simp only [List.getLast?_singleton, Option.some.injEq] at hz
    subst hz
    rw [hdx]
    norm_num
  | cons y rest ih =>
    intro x dx t segs lastw hdx hch
    obtain ⟨hrel, hch'⟩ := List.chain'_cons.mp hch
    obtain ⟨w, hlk, hq⟩ := hrel
    have hdy : DVal F y = ((dx + w : ℚ) : WithTop ℚ) := by
      rw [hq, hdx, wt_add_coe]
    obtain ⟨T, segs2, hT, hlast⟩ := ih y (dx + w) (t + w) (segs ++ [(x, y, w)]) (some w)
      hdy hch'
    refine ⟨T, segs2, ?_, ?_⟩
    · rw [pathDetailsLoop_cons_cons hlk]
      exact hT
    · intro z hz
      have hz' : (y :: rest).getLast? = some z := by
        rw [List.getLast?_cons_cons] at hz
        exact hz
      have := hlast z hz'
      rw [this]
      congr 1
      ring

/-! ## Unfolding `find_nearest_available_hospital` -/

theorem dijkstra_fst {g : Graph} {a : String} (ha : a ∈ g.nodes) :
    (g.dijkstra a).1 = (dijkstraFinal g a).dist := by
  rw [dijkstra_eq_final ha]

theorem dijkstra_snd {g : Graph} {a : String} (ha : a ∈ g.nodes) :
    (g.dijkstra a).2 = (dijkstraFinal g a).pred := by
  rw [dijkstra_eq_final ha]

theorem find_nearest_def (g : Graph) (o : String) :
    g.find_nearest_available_hospital o =
      if g.get_available_hospitals.isEmpty then (none, [], ⊤)
      else
        match (g.get_available_hospitals.foldl
            (considerHospital (g.dijkstra o).1) (none, ⊤)).1 with
        | none => (none, [], ⊤)
        | some nearest =>
          (some nearest,
            (buildPath (g.dijkstra o).2 (g.graph.length + 1) (some nearest) []).reverse,
            (g.get_available_hospitals.foldl
              (considerHospital (g.dijkstra o).1) (none, ⊤)).2) := rfl

theorem find_nearest_none {g : Graph} {o : String} (hwf : WF g) (hnn : NonNeg g)
    (hno : ¬ ∃ h, AvailableH g h ∧ Reachable g o h) :
    g.find_nearest_available_hospital o = (none, [], ⊤) := by
  rw [find_nearest_def]
  by_cases hemp : g.get_available_hospitals.isEmpty
  · rw [if_pos hemp]
  · rw [if_neg hemp]
    cases hsel : (g.get_available_hospitals.foldl
        (considerHospital (g.dijkstra o).1) (none, ⊤)).1 with
    | none => rfl
    | some h =>
      exfalso
      obtain ⟨hmem, hlk, hlt⟩ := (sel_spec (g.dijkstra o).1 g.get_available_hospitals).1
        h hsel
      have hav : AvailableH g h := (mem_available_iff hwf h).mp hmem
      by_cases ho : o ∈ g.nodes
      · obtain ⟨hinv, hpq⟩ := dijkstra_correct hwf hnn ho
        rw [dijkstra_fst ho] at hlk hlt
        have hfin : DVal (dijkstraFinal g o) h ≠ ⊤ := by
          unfold DVal
          rw [hlk]
          exact ne_top_of_lt hlt
        obtain ⟨cq, hcq⟩ := wt_exists_coe hfin
        exact hno ⟨h, hav, cq, hinv.sound h cq hcq⟩
      · rw [dijkstra_unknown ho] at hlk
        simp [lookupA] at hlk

theorem find_nearest_main {g : Graph} {o : String} (hwf : WF g) (hnn : NonNeg g)
    {h : String} {path : List String} {c : WithTop ℚ}
    (heq : g.find_nearest_available_hospital o = (some h, path, c)) :
    o ∈ g.nodes ∧ AvailableH g h ∧
    (∃ cq : ℚ, c = ((cq : ℚ) : WithTop ℚ) ∧ 0 ≤ cq ∧ IsShortestDist g o h cq ∧
      (∀ h', AvailableH g h' → ∀ c', WalkCost g o h' c' → cq ≤ c') ∧
      (∃ segs, g.get_path_details path = some (cq, segs))) ∧
    path.head? = some o ∧ path.getLast? = some h ∧ path.Nodup ∧
    List.Chain' (fun p q => (lookupA (adjOf g p) q).isSome = true) path := by
  rw [find_nearest_def] at heq
  by_cases hemp : g.get_available_hospitals.isEmpty
  · rw [if_pos hemp] at heq
    simp at heq
  rw [if_neg hemp] at heq
  cases hsel : (g.get_available_hospitals.foldl
      (considerHospital (g.dijkstra o).1) (none, ⊤)).1 with
  | none =>
    rw [hsel] at heq
    simp at heq
  | some nearest =>
    rw [hsel] at heq
    simp only [Prod.mk.injEq, Option.some.injEq] at heq
    obtain ⟨hh, hpath, hc⟩ := heq
    rw [hh] at hsel hpath
    clear hh
    obtain ⟨hmem, hlk, hlt⟩ := (sel_spec (g.dijkstra o).1 g.get_available_hospitals).1
      h hsel
    have hminsel := (sel_spec (g.dijkstra o).1 g.get_available_hospitals).2.1
    have hav : AvailableH g h := (mem_available_iff hwf h).mp hmem
    have ho : o ∈ g.nodes := by
      by_contra ho
      rw [dijkstra_unknown ho] at hlk
      simp [lookupA] at hlk
    obtain ⟨hinv, hpq⟩ := dijkstra_correct hwf hnn ho
    rw [dijkstra_fst ho] at hlk hminsel hc hlt
    rw [dijkstra_snd ho] at hpath
    have hdv : DVal (dijkstraFinal g o) h = c := by
      unfold DVal
      rw [hlk, hc]
      rfl
    have hfin : DVal (dijkstraFinal g o) h ≠ ⊤ := by
      rw [hdv, ← hc]
      exact ne_top_of_lt hlt
    obtain ⟨cq, hcq⟩ := wt_exists_coe hfin
    have hcqc : c = ((cq : ℚ) : WithTop ℚ) := by rw [← hdv, hcq]
    obtain ⟨l, hl⟩ := reachesNone_chainList (hinv.predTerm h)
    obtain ⟨hlmem, hllast, hlchain⟩ := final_chain_props hwf hnn hinv hpq h l hl hfin
    have hlnd : l.Nodup := chainList_nodup hl
    have hllen : l.length ≤ g.graph.length + 1 := by
      have h1 : l.length ≤ g.nodes.length :=
        nodup_subset_length hlnd fun x hx => (hlmem x hx).1
      have h2 : g.nodes.length = g.graph.length := by
        unfold Graph.nodes
        simp
      omega
    have hl2 : ChainList (fun x => (lookupA (dijkstraFinal g o).pred x).getD none) h l := hl
    have hbuild : buildPath (dijkstraFinal g o).pred (g.graph.length + 1) (some h) [] = l :=
      chainList_buildPath hl2 [] (g.graph.length + 1) hllen
    have hpathl : path = l.reverse := by
      rw [← hpath, hbuild]
    obtain ⟨t0, ht0⟩ := chainList_head hl
    have hhead : path.head? = some o := by
      rw [hpathl, List.head?_reverse, hllast]
    have hlast : path.getLast? = some h := by
      rw [hpathl, List.getLast?_reverse, ht0]
      rfl
    have hnd : path.Nodup := by
      rw [hpathl]
      exact List.nodup_reverse.mpr hlnd
    have hchain' : List.Chain' (fun p q => ∃ w : ℚ, lookupA (adjOf g p) q = some w ∧
        DVal (dijkstraFinal g o) q = DVal (dijkstraFinal g o) p + (w : WithTop ℚ))
        path := by
      rw [hpathl]
      rw [List.chain'_reverse]
      exact hlchain
    refine ⟨ho, hav, ⟨cq, hcqc, ?_, ?_, ?_, ?_⟩, hhead, hlast, hnd, ?_⟩
    · exact walkcost_nonneg hnn (hinv.sound h cq hcq)
    · refine ⟨hinv.sound h cq hcq, ?_⟩
      intro c' hw'
      have := final_opt hinv hpq h c' hw'
      rw [hcq] at this
      exact_mod_cast this
    · intro h' hav' c' hw'
      have hav2 := hav'
      obtain ⟨info', hli', _⟩ := hav2
      have hmem' : h' ∈ g.nodes := hwf.hospSub h' (by
        rw [← lookupA_isSome_iff]
        rw [hli']
        rfl)
      have hk' : h' ∈ (dijkstraFinal g o).dist.map Prod.fst := by
        rw [hinv.distKeys]
        exact hmem'
      have hlk' : lookupA (dijkstraFinal g o).dist h' =
          some (DVal (dijkstraFinal g o) h') := lookupA_eq_DVal hk'
      have hselmin : c ≤ DVal (dijkstraFinal g o) h' := by
        rw [← hc]
        exact hminsel h' ((mem_available_iff hwf h').mpr hav') _ hlk'
      have hopt : DVal (dijkstraFinal g o) h' ≤ ((c' : ℚ) : WithTop ℚ) :=
        final_opt hinv hpq h' c' hw'
      have hcc : c ≤ ((c' : ℚ) : WithTop ℚ) := le_trans hselmin hopt
      rw [hcqc] at hcc
      exact_mod_cast hcc
    · cases hpc : path with
      | nil =>
        rw [hpc] at hhead
        simp at hhead
      | cons x xs =>
        have hx : x = o := by
          rw [hpc] at hhead
          simpa using hhead
        cases hxs : xs with
        | nil =>
          have hoh : x = h := by
            rw [hpc, hxs] at hlast
            simpa using hlast
          have hcq0 : cq = 0 := by
            have h0 : DVal (dijkstraFinal g o) h = 0 := by
              rw [← hoh, hx]
              exact hinv.srcZero
            rw [hcq] at h0
            exact_mod_cast h0
          refine ⟨[], ?_⟩
          rw [hcq0]
          rfl
        | cons y rest =>
          rw [hpc, hxs] at hchain' hlast
          have hdx : DVal (dijkstraFinal g o) x = ((0 : ℚ) : WithTop ℚ) := by
            rw [hx]
            exact hinv.srcZero
          obtain ⟨T, segs2, hT, hlastT⟩ := pathDetails_telescope (y :: rest) x 0 0 []
            none hdx hchain'
          have hTh := hlastT h hlast
          have hTcq : T = cq := by
            rw [hcq] at hTh
            have hq : (0 + (T - 0) : ℚ) = cq := by exact_mod_cast hTh.symm
            linarith
          refine ⟨segs2, ?_⟩
          unfold Graph.get_path_details
          rw [if_neg (by simp), hT, hTcq]
    · refine List.Chain'.imp ?_ hchain'
      intro p q hpq'
      obtain ⟨w, hw, _⟩ := hpq'
      rw [hw]
      rfl

/-! ## Claim C1: nearest available hospital -/

/-- C1: whenever `find_nearest_available_hospital(origin)` returns a hospital,
that hospital is available and its shortest-path distance from the origin is
minimal among all available hospitals, the returned path runs along edges of
the graph from the origin to that hospital, and the returned cost is that
shortest-path distance; and whenever no hospital is both reachable and
available (in particular when every hospital is full), the result is
`(None, [], +infinity)`. -/
theorem claim_C1 : ∀ g : Graph, ∀ o : String, WF g → NonNeg g →
    (∀ h path c, g.find_nearest_available_hospital o = (some h, path, c) →
      AvailableH g h ∧
      (∃ cq : ℚ, c = ((cq : ℚ) : WithTop ℚ) ∧ IsShortestDist g o h cq ∧
        (∀ h', AvailableH g h' → ∀ c', WalkCost g o h' c' → cq ≤ c')) ∧
      path.head? = some o ∧ path.getLast? = some h ∧
      List.Chain' (fun p q => (lookupA (adjOf g p) q).isSome = true) path) ∧
    ((¬ ∃ h, AvailableH g h ∧ Reachable g o h) →
      g.find_nearest_available_hospital o = (none, [], ⊤)) := by
  intro g o hwf hnn
  constructor
  · intro h path c heq
    obtain ⟨_, hav, ⟨cq, hcqc, _, hsd, hmin, _⟩, hhead, hlast, _, hch⟩ :=
      find_nearest_main hwf hnn heq
    exact ⟨hav, ⟨cq, hcqc, hsd, hmin⟩, hhead, hlast, hch⟩
  · exact find_nearest_none hwf hnn

set_option maxRecDepth 100000 in
/-- Witness for C1 on the sample map: the emergency at `I` is assigned to the
available hospital `H1` at its true shortest distance, and a graph with no
hospitals yields `(None, [], +infinity)`. -/
theorem claim_C1_witness :
    (AvailableH create_sample_map "H1" ∧
      (∃ cq : ℚ, ((17 / 5 : ℚ) : WithTop ℚ) = ((cq : ℚ) : WithTop ℚ) ∧
        IsShortestDist create_sample_map "I" "H1" cq ∧
        (∀ h', AvailableH create_sample_map h' →
          ∀ c', WalkCost create_sample_map "I" h' c' → cq ≤ c')) ∧
      (["I", "E", "H1"] : List String).head? = some "I" ∧
      (["I", "E", "H1"] : List String).getLast? = some "H1" ∧
      List.Chain' (fun p q => (lookupA (adjOf create_sample_map p) q).isSome = true)
        ["I", "E", "H1"]) ∧
    (Graph.empty.add_node "X" 0 0 false 0).find_nearest_available_hospital "X" =
      (none, [], ⊤) := by
  constructor
  · exact (claim_C1 create_sample_map "I"
      (by constructor <;> with_unfolding_all decide) (by with_unfolding_all decide)).1
      "H1" ["I", "E", "H1"] ((17 / 5 : ℚ) : WithTop ℚ) (by with_unfolding_all decide)
  · refine (claim_C1 (Graph.empty.add_node "X" 0 0 false 0) "X"
      (by constructor <;> with_unfolding_all decide) (by with_unfolding_all decide)).2 ?_
    rintro ⟨h, ⟨info, hl, _⟩, _⟩
    have hh : (Graph.empty.add_node "X" 0 0 false 0).hospitals = [] := rfl
    rw [hh] at hl
    simp [lookupA] at hl

/-! ## Claim C5: path cost round-trip -/

/-- C5: whenever `find_nearest_available_hospital` returns a hospital, the
total distance computed by `get_path_details` on the returned path equals the
returned cost. -/
theorem claim_C5 : ∀ g : Graph, ∀ o : String, WF g → NonNeg g →
    ∀ h path c, g.find_nearest_available_hospital o = (some h, path, c) →
    ∃ cq : ℚ, c = ((cq : ℚ) : WithTop ℚ) ∧
      ∃ segs, g.get_path_details path = some (cq, segs) := by
  intro g o hwf hnn h path c heq
  obtain ⟨_, _, ⟨cq, hcqc, _, _, _, hdet⟩, _, _, _, _⟩ := find_nearest_main hwf hnn heq
  exact ⟨cq, hcqc, hdet⟩

set_option maxRecDepth 100000 in
/-- Witness for C5 on the sample map at origin `I`. -/
theorem claim_C5_witness :
    ∃ cq : ℚ, ((17 / 5 : ℚ) : WithTop ℚ) = ((cq : ℚ) : WithTop ℚ) ∧
      ∃ segs, create_sample_map.get_path_details ["I", "E", "H1"] = some (cq, segs) :=
  claim_C5 create_sample_map "I"
    (by constructor <;> with_unfolding_all decide) (by with_unfolding_all decide)
    "H1" ["I", "E", "H1"] ((17 / 5 : ℚ) : WithTop ℚ) (by with_unfolding_all decide)

/-! ## Claim C8: returned paths walk along real edges -/

/-- C8: every pair of consecutive nodes on a path returned by
`find_nearest_available_hospital` is joined by an edge of the graph, so the
weight lookup inside `get_path_details` succeeds for every segment and the
function returns a result (the `NameError` branch is unreachable). -/
theorem claim_C8 : ∀ g : Graph, ∀ o : String, WF g → NonNeg g →
    ∀ h path c, g.find_nearest_available_hospital o = (some h, path, c) →
    List.Chain' (fun p q => (lookupA (adjOf g p) q).isSome = true) path ∧
    (g.get_path_details path).isSome = true := by
  intro g o hwf hnn h path c heq
  obtain ⟨_, _, ⟨cq, _, _, _, _, segs, hdet⟩, _, _, _, hch⟩ := find_nearest_main hwf hnn heq
  refine ⟨hch, ?_⟩
  rw [hdet]
  rfl

set_option maxRecDepth 100000 in
/-- Witness for C8 on the sample map at origin `I`. -/
theorem claim_C8_witness :
    List.Chain' (fun p q => (lookupA (adjOf create_sample_map p) q).isSome = true)
      ["I", "E", "H1"] ∧
    (create_sample_map.get_path_details ["I", "E", "H1"]).isSome = true :=
  claim_C8 create_sample_map "I"
    (by constructor <;> with_unfolding_all decide) (by with_unfolding_all decide)
    "H1" ["I", "E", "H1"] ((17 / 5 : ℚ) : WithTop ℚ) (by with_unfolding_all decide)

/-! ## Claim C10 (corrected): predecessor chains -/

set_option maxRecDepth 100000 in
/-- Counterexample to C10 as stated: on a zero-weight edge, following the
predecessor map does not strictly decrease the distance — node `b` has
predecessor `a` yet both distances are `0`. -/
theorem claim_C10_counterexample :
    lookupA (zeroWeightExample.dijkstra "a").2 "b" = some (some "a") ∧
    lookupA (zeroWeightExample.dijkstra "a").1 "b" =
      lookupA (zeroWeightExample.dijkstra "a").1 "a" ∧
    lookupA (zeroWeightExample.dijkstra "a").1 "a" = some ((0 : ℚ) : WithTop ℚ) := by
  with_unfolding_all decide

/-- C10, amended: with non-negative weights, every predecessor edge is a real
edge whose tail distance never exceeds (rather than strictly undercuts) the
head distance, the origin's predecessor is `None`, following predecessors
from any node terminates, and the reconstructed path visits each node at most
once, beginning at the origin. -/
theorem claim_C10 : ∀ g : Graph, ∀ a : String, WF g → NonNeg g → a ∈ g.nodes →
    (∀ v u, lookupA (g.dijkstra a).2 v = some (some u) →
      (∃ w : ℚ, 0 ≤ w ∧ (v, w) ∈ adjOf g u) ∧
      (∀ dv du, lookupA (g.dijkstra a).1 v = some dv →
        lookupA (g.dijkstra a).1 u = some du → du ≤ dv)) ∧
    lookupA (g.dijkstra a).2 a = some none ∧
    (∀ v, ReachesNone (fun x => (lookupA (g.dijkstra a).2 x).getD none) v) ∧
    (∀ h path c, g.find_nearest_available_hospital a = (some h, path, c) →
      path.Nodup ∧ path.head? = some a) := by
  intro g a hwf hnn ha
  obtain ⟨hinv, hemp⟩ := dijkstra_correct hwf hnn ha
  refine ⟨?_, ?_, ?_, ?_⟩
  · intro v u hp
    rw [dijkstra_snd ha] at hp
    have hpv : PVal (dijkstraFinal g a) v = some u := by
      unfold PVal
      rw [hp]
      rfl
    obtain ⟨humem, hfinv, w, hedge, hle⟩ := hinv.predEdge v u hpv
    refine ⟨⟨w, nonNeg' hnn hedge, hedge⟩, ?_⟩
    intro dv du hdv hdu
    rw [dijkstra_fst ha] at hdv hdu
    have h1 : DVal (dijkstraFinal g a) v = dv := by
      unfold DVal
      rw [hdv]
      rfl
    have h2 : DVal (dijkstraFinal g a) u = du := by
      unfold DVal
      rw [hdu]
      rfl
    rw [h1, h2] at hle
    calc du ≤ du + (w : WithTop ℚ) :=
          le_add_of_nonneg_right (by exact_mod_cast nonNeg' hnn hedge)
      _ ≤ dv := hle
  · rw [dijkstra_snd ha]
    have hk : a ∈ (dijkstraFinal g a).pred.map Prod.fst := by
      rw [hinv.predKeys]
      exact ha
    rw [lookupA_eq_PVal hk, hinv.srcPred]
  · intro v
    rw [dijkstra_snd ha]
    exact hinv.predTerm v
  · intro h path c heq
    obtain ⟨_, _, _, hhead, _, hnd, _⟩ := find_nearest_main hwf hnn heq
    exact ⟨hnd, hhead⟩

set_option maxRecDepth 100000 in
/-- Witness for the amended C10 on the sample map from origin `I`: the
predecessor edge into `E`, the origin's `None` predecessor, and the
reconstructed path to `H1`. -/
theorem claim_C10_witness :
    ((∃ w : ℚ, 0 ≤ w ∧ ("E", w) ∈ adjOf create_sample_map "I") ∧
      (∀ dv du, lookupA (create_sample_map.dijkstra "I").1 "E" = some dv →
        lookupA (create_sample_map.dijkstra "I").1 "I" = some du → du ≤ dv)) ∧
    lookupA (create_sample_map.dijkstra "I").2 "I" = some none ∧
    ((["I", "E", "H1"] : List String).Nodup ∧
      (["I", "E", "H1"] : List String).head? = some "I") := by
  have hc := claim_C10 create_sample_map "I"
    (by constructor <;> with_unfolding_all decide) (by with_unfolding_all decide)
    (by with_unfolding_all decide)
  refine ⟨hc.1 "E" "I" (by with_unfolding_all decide), hc.2.1, ?_⟩
  exact hc.2.2.2 "H1" ["I", "E", "H1"] ((17 / 5 : ℚ) : WithTop ℚ)
    (by with_unfolding_all decide)

/-! ## Claim C4 (corrected): the grid scenario -/

set_option maxRecDepth 100000 in
/-- Counterexample to C4 as stated: the cost of the assignment from node `I`
is `3.4`, not `5.4` — the path `I → E → H1` itself sums to `2 + 1.4 = 3.4`. -/
theorem claim_C4_counterexample :
    (create_sample_map.find_nearest_available_hospital "I").2.2 ≠
      ((27 / 5 : ℚ) : WithTop ℚ) ∧
    (create_sample_map.find_nearest_available_hospital "I").2.2 =
      ((17 / 5 : ℚ) : WithTop ℚ) := by
  with_unfolding_all decide

set_option maxRecDepth 100000 in
/-- C4, amended: in the grid scenario the emergency at `I` is assigned to
`H1` with cost `3.4` along `I → E → H1`; after two committed allocations to
`H1` that hospital leaves the available set and the next query from `I`
returns `H2` or `H3` (namely `H3`, at cost `3.4` along `I → J → H3`). -/
theorem claim_C4 :
    create_sample_map.find_nearest_available_hospital "I" =
      (some "H1", ["I", "E", "H1"], ((17 / 5 : ℚ) : WithTop ℚ)) ∧
    ("H1" ∈ create_sample_map.get_available_hospitals ∧
      "H1" ∉ gAfterTwoCommits.get_available_hospitals) ∧
    ((gAfterTwoCommits.find_nearest_available_hospital "I").1 = some "H2" ∨
      (gAfterTwoCommits.find_nearest_available_hospital "I").1 = some "H3") ∧
    gAfterTwoCommits.find_nearest_available_hospital "I" =
      (some "H3", ["I", "J", "H3"], ((17 / 5 : ℚ) : WithTop ℚ)) := by
  with_unfolding_all decide
